import Mathlib

/-!
Verification development for the obsidian-mcp-server repository.

The development shallowly embeds the two core components of the repository:

* `src/frontmatter_parser.py` — the `FrontmatterParser` class: the compiled
  regular expression `^---\s*\n(.*?)\n---\s*\n` (with DOTALL) applied via
  `.match`, the PyYAML round trip (`yaml.safe_load` / `yaml.dump`) on the
  block-mapping fragment actually used for note headers, and the
  parse / dump / update class methods.
* `src/vault_manager.py` — the `VaultManager` class: path resolution and
  confinement, the note CRUD operations over a filesystem model, and the
  scan operations (backlinks, tag listing, tag search).

Strings are modelled by Lean `String` / `List Char`; Python regular
expressions are modelled by executable scanning functions that mirror the
backtracking behaviour of the specific patterns compiled in the source
(`FRONTMATTER_PATTERN`, the backlink pattern, the tag patterns).  `\s` and
`\w` are modelled on their ASCII fragment.  The filesystem is modelled as an
association list from resolved absolute paths (component lists) to file
contents; `Path.resolve()` is modelled lexically (a symlink-free
filesystem).  Display-only result fields of the scan operations
(`name`, `size`, `modified`) are not modelled.
-/

/-! ## Character classes (ASCII fragment of Python `\s` and `\w`) -/

/-- Python regex `\s` on ASCII characters. -/
def isSpaceCh (c : Char) : Bool :=
  c = ' ' || c = '\t' || c = '\n' || c = '\r' || c = '\x0b' || c = '\x0c'

/-- Python regex `\w` on ASCII characters: letters, digits, underscore. -/
def isWordCh (c : Char) : Bool :=
  c.isAlphanum || c = '_'

/-! ## YAML value model

Frontmatter metadata is an insertion-ordered mapping from string keys to
values; values are scalars or nested mappings.  This mirrors the Python
`dict[str, Any]` produced by `yaml.safe_load` on the header fragment. -/

/-- A YAML value: a scalar (modelled as its string form) or a nested
mapping. -/
inductive YVal where
  | s (v : String)
  | m (entries : List (String × YVal))

/-- Frontmatter metadata: an insertion-ordered association list modelling a
Python `dict[str, Any]`. -/
abbrev Metadata := List (String × YVal)

/-- First-match key lookup (Python `d[k]`). -/
def lookupKey : Metadata → String → Option YVal
  | [], _ => none
  | (k, v) :: rest, key => if k = key then some v else lookupKey rest key

/-- Python `k in d`. -/
def containsKey (md : Metadata) (key : String) : Bool :=
  md.any (fun kv => kv.1 = key)

/-- Python `d[k] = v` on an insertion-ordered dict: an existing key keeps its
position and gets the new value, a new key is appended. -/
def dictInsert (md : Metadata) (key : String) (v : YVal) : Metadata :=
  if containsKey md key then
    md.map (fun kv => if kv.1 = key then (key, v) else kv)
  else
    md ++ [(key, v)]

/-- Python `{**a, **b}`: start from `a` and insert every pair of `b` in
order.  Values (including nested mappings) are replaced wholesale. -/
def mergeDicts (a b : Metadata) : Metadata :=
  b.foldl (fun acc kv => dictInsert acc kv.1 kv.2) a

/-- Keys of a metadata mapping are pairwise distinct (always true of an
actual Python dict). -/
def keysNodup (md : Metadata) : Prop :=
  (md.map Prod.fst).Nodup

instance (md : Metadata) : Decidable (keysNodup md) := by
  unfold keysNodup; infer_instance

/-! ## `yaml.dump` on the modelled fragment

`FrontmatterParser.dump` calls
`yaml.dump(frontmatter, default_flow_style=False, sort_keys=False,
allow_unicode=True)`.  On the modelled fragment — a flat mapping whose keys
and values are plain scalars (see `wfKey` / `wfVal` below) — PyYAML emits one
`key: value` line per entry, in insertion order, each terminated by a
newline.  Nested mappings are outside the modelled fragment; every theorem
that evaluates `dumpFM` on metadata guards it with `wfMeta`. -/

/-- Scalar rendering of a modelled YAML value.  Faithful for plain scalars
(`YVal.s` under `wfVal`); nested mappings are outside the modelled
fragment. -/
def dumpVal : YVal → String
  | .s v => v
  | .m _ => ""

/-- One emitted mapping line, `key: value`. -/
def yamlLine (k : String) (v : YVal) : String :=
  k ++ ": " ++ dumpVal v

/-- The text produced by `yaml.dump` on the modelled fragment: one
`key: value` line per entry, each ending in a newline. -/
def yamlText : Metadata → String
  | [] => ""
  | (k, v) :: rest => yamlLine k v ++ "\n" ++ yamlText rest

/-- `FrontmatterParser.dump`: empty metadata returns the content unchanged;
otherwise the note is `f"---\n{yaml_text}---\n\n{content}"`. -/
def dumpFM (md : Metadata) (content : String) : String :=
  if md.isEmpty then content
  else "---\n" ++ yamlText md ++ "---\n\n" ++ content

/-! ## The header regex `^---\s*\n(.*?)\n---\s*\n` (DOTALL), under `.match`

The functions below implement the exact backtracking semantics of this
pattern anchored at the start of the text:

* `---` must be the first three characters;
* the first `\s*\n` consumes a run of whitespace ending at a newline,
  preferring the longest such run (greedy `\s*`, backtracking on demand);
* `(.*?)` grows lazily, one character at a time;
* the closing `\n---\s*\n` again takes the longest whitespace run ending at
  a newline after the closing delimiter.

`match.group(1)` is the lazily grown middle, `text[match.end():]` is what
remains after the closing `\s*\n`. -/

/-- Index of the last newline of a character run, if any — the position the
greedy `\s*\n` settles on after backtracking. -/
def lastNewlinePos : List Char → Option Nat
  | [] => none
  | c :: cs =>
    match lastNewlinePos cs with
    | some j => some (j + 1)
    | none => if c = '\n' then some 0 else none

/-- Attempt to match the closing `\n---\s*\n` at the current position.
Returns the text after the match (i.e. after the newline the greedy `\s*\n`
settles on). -/
def closeAt (rem : List Char) : Option (List Char) :=
  match rem with
  | a :: b :: c :: d :: rest2 =>
    if a = '\n' ∧ b = '-' ∧ c = '-' ∧ d = '-' then
      match lastNewlinePos (rest2.takeWhile isSpaceCh) with
      | some j => some (rest2.drop (j + 1))
      | none => none
    else none
  | _ => none

/-- Lazy `(.*?)` followed by the closing delimiter: try the close at every
position from left to right, accumulating the skipped characters as the
group. -/
def scanClose : List Char → Option (List Char × List Char)
  | [] => none
  | c :: rest =>
    match closeAt (c :: rest) with
    | some tail => some ([], tail)
    | none => (scanClose rest).map (fun p => (c :: p.1, p.2))

/-- Positions of `'\n'` in a list, in ascending order. -/
def newlinesAsc : List Char → List Nat
  | [] => []
  | c :: cs => (if c = '\n' then [0] else []) ++ (newlinesAsc cs).map (· + 1)

/-- Candidate endpoints for the opening `\s*\n`, in the order the
backtracking engine tries them: newline positions within the leading
whitespace run, longest first. -/
def newlinesDesc (w : List Char) : List Nat :=
  (newlinesAsc w).reverse

/-- Try each opening `\s*\n` endpoint in engine order, running the rest of
the pattern after it. -/
def tryOpens (rest : List Char) : List Nat → Option (List Char × List Char)
  | [] => none
  | j :: js =>
    match scanClose (rest.drop (j + 1)) with
    | some p => some p
    | none => tryOpens rest js

/-- `FRONTMATTER_PATTERN.match(text)`: `some (group1, textAfterMatch)` when
the pattern matches at the start of the text. -/
def matchFrontmatter (cs : List Char) : Option (List Char × List Char) :=
  match cs with
  | a :: b :: c :: rest =>
    if a = '-' ∧ b = '-' ∧ c = '-' then
      tryOpens rest (newlinesDesc (rest.takeWhile isSpaceCh))
    else none
  | _ => none

/-! ## `yaml.safe_load` on the modelled fragment

The loader accepts the block-mapping fragment the repository writes and
reads: a sequence of `key: value` lines (blank lines ignored); an
all-whitespace header loads as `None`, which `parse` coerces to `{}`.
Anything else in the header is treated as structurally invalid and produces
a diagnostic, modelling `yaml.YAMLError`. -/

/-- Split a character list at newlines. -/
def splitNl : List Char → List (List Char)
  | [] => [[]]
  | c :: cs =>
    match splitNl cs with
    | [] => [[c]]
    | h :: t => if c = '\n' then [] :: h :: t else (c :: h) :: t

/-- Parse one `key: value` mapping line of the fragment. -/
def parseLineKV (line : List Char) : Except String (String × YVal) :=
  let k := line.takeWhile (fun c => ¬ (c = ':'))
  match line.drop k.length with
  | ':' :: ' ' :: v =>
    if k ≠ [] ∧ k.head? ≠ some ' ' ∧ v ≠ [] then
      .ok (String.mk k, .s (String.mk v))
    else .error ("invalid mapping line: " ++ String.mk line)
  | _ => .error ("could not parse block mapping entry: " ++ String.mk line)

/-- Fold the parsed lines into a dict, last key wins in place, as Python
builds mapping nodes. -/
def loadLinesAux (acc : Metadata) : List (List Char) → Except String Metadata
  | [] => .ok acc
  | l :: ls =>
    match parseLineKV l with
    | .error e => .error e
    | .ok (k, v) => loadLinesAux (dictInsert acc k v) ls

/-- `yaml.safe_load` on the modelled fragment (the `or {}` coercion of a
`None` result is included: a blank header yields the empty mapping). -/
def yamlLoad (cs : List Char) : Except String Metadata :=
  if cs.all isSpaceCh then .ok []
  else loadLinesAux [] ((splitNl cs).filter (fun l => ¬ l.all isSpaceCh))

/-! ## `FrontmatterParser.parse` / `update` -/

/-- Result of parsing frontmatter from a note (the `FrontmatterResult`
dataclass). -/
structure FMResult where
  frontmatter : Metadata
  content : String
  has_frontmatter : Bool

/-- `FrontmatterParser.parse`: no match returns the whole text as content
with empty metadata; a match loads the header, raising
`ValueError(f"Invalid YAML frontmatter: {e}")` (modelled as the `.error`
case) when the header is structurally invalid. -/
def parseFM (text : String) : Except String FMResult :=
  match matchFrontmatter text.toList with
  | none => .ok ⟨[], text, false⟩
  | some (g, rest) =>
    match yamlLoad g with
    | .error e => .error ("Invalid YAML frontmatter: " ++ e)
    | .ok md => .ok ⟨md, String.mk rest, true⟩

/-- `FrontmatterParser.update`: parse, merge `{**existing, **new}`, dump
with the original content. -/
def updateFM (text : String) (md : Metadata) : Except String String :=
  match parseFM text with
  | .error e => .error e
  | .ok r => .ok (dumpFM (mergeDicts r.frontmatter md) r.content)

example : parseFM "---\ntitle: Test\n---\nContent" =
    .ok ⟨[("title", .s "Test")], "Content", true⟩ := rfl

example : parseFM "---\ntitle: Test\n---Content" =
    .ok ⟨[], "---\ntitle: Test\n---Content", false⟩ := rfl

example : parseFM "no header here" = .ok ⟨[], "no header here", false⟩ := rfl

example : dumpFM [("title", .s "Test")] "Body" = "---\ntitle: Test\n---\n\nBody" := rfl

example : parseFM (dumpFM [("title", .s "Test")] "\nBody") =
    .ok ⟨[("title", .s "Test")], "Body", true⟩ := rfl

example : parseFM "---\n\n---\nx" = .ok ⟨[], "x", true⟩ := rfl

example : updateFM "---\ntitle: Original\n---\nBody" [("author", .s "Test")] =
    .ok "---\ntitle: Original\nauthor: Test\n---\n\nBody" := rfl

/-! ## Well-formed flat metadata (the PyYAML plain-scalar fragment)

The round-trip theorems quantify over metadata within the fragment on which
the modelled `yaml.dump` is faithful to PyYAML: flat mappings whose keys are
plain alphabetic words and whose values are plain scalars that PyYAML
neither quotes nor retypes.  The character predicates record, alongside the
defining class, the exclusions the proofs use directly. -/

/-- Strings PyYAML would resolve to booleans or null and therefore quote
when dumped; excluded from the fragment. -/
def reservedScalars : List String :=
  ["true", "True", "TRUE", "false", "False", "FALSE",
   "yes", "Yes", "YES", "no", "No", "NO",
   "on", "On", "ON", "off", "Off", "OFF",
   "null", "Null", "NULL"]

/-- Admissible key character: an ASCII letter (hence not whitespace, not a
colon, not a dash, not a newline — recorded as explicit conjuncts for direct
use in proofs). -/
def keyCh (c : Char) : Bool :=
  c.isAlpha && !(isSpaceCh c) && !(c = ':') && !(c = '-') && !(c = '\n')

/-- Admissible value character: letter, digit or space (hence not a colon,
dash or newline — recorded explicitly). -/
def valCh (c : Char) : Bool :=
  (c.isAlphanum || c = ' ') && !(c = ':') && !(c = '-') && !(c = '\n')

/-- A key PyYAML dumps as a bare `key:`. -/
def wfKey (k : String) : Bool :=
  !k.toList.isEmpty && k.toList.all keyCh && !(reservedScalars.contains k)

/-- A value PyYAML dumps as a bare plain scalar and loads back as the same
string.  Nested mappings are outside the fragment. -/
def wfVal : YVal → Bool
  | .s v =>
    !v.toList.isEmpty && v.toList.all valCh
      && v.toList.head?.elim false Char.isAlpha
      && v.toList.getLast?.elim false (fun c => !(c = ' '))
      && !(reservedScalars.contains v)
  | .m _ => false

/-- Metadata inside the faithfully modelled fragment. -/
def wfMeta (md : Metadata) : Prop :=
  (∀ kv ∈ md, wfKey kv.1 = true ∧ wfVal kv.2 = true) ∧ keysNodup md

instance (md : Metadata) : Decidable (wfMeta md) := by
  unfold wfMeta; infer_instance

/-- A body whose leading whitespace run contains no newline: the closing
`\s*\n` of the header regex cannot swallow any of it. -/
def goodBody (B : String) : Prop :=
  '\n' ∉ B.toList.takeWhile isSpaceCh

instance (B : String) : Decidable (goodBody B) := by
  unfold goodBody; infer_instance

/-! ## String-level helper lemmas -/

theorem str_toList_append (s t : String) : (s ++ t).toList = s.toList ++ t.toList := by
  cases s; cases t; rfl

theorem str_mk_toList (s : String) : String.mk s.toList = s := by
  cases s; rfl

/-! ## Character-level layout of the dumped text -/

/-- The characters of one dumped mapping line. -/
def lineChars (k : String) (v : YVal) : List Char :=
  k.toList ++ ':' :: ' ' :: (dumpVal v).toList

/-- The characters of the dumped header body, line by line. -/
def yamlChars : Metadata → List Char
  | [] => []
  | (k, v) :: rest => lineChars k v ++ '\n' :: yamlChars rest

/-- The header text without its final newline — the group the regex
captures. -/
def groupChars : Metadata → List Char
  | [] => []
  | (k, v) :: rest =>
    match rest with
    | [] => lineChars k v
    | _ :: _ => lineChars k v ++ '\n' :: groupChars rest

theorem yamlLine_toList (k : String) (v : YVal) :
    (yamlLine k v).toList = lineChars k v := by
  simp only [yamlLine, lineChars, str_toList_append, List.append_assoc]
  rfl

theorem yamlText_toList (md : Metadata) :
    (yamlText md).toList = yamlChars md := by
  induction md with
  | nil => rfl
  | cons kv rest ih =>
    obtain ⟨k, v⟩ := kv
    simp only [yamlText, yamlChars, str_toList_append, yamlLine_toList, ih,
      List.append_assoc]
    rfl

theorem wfKey_facts {k : String} (h : wfKey k = true) :
    k.toList ≠ [] ∧ ∀ c ∈ k.toList, c.isAlpha = true ∧ isSpaceCh c = false ∧
      c ≠ ':' ∧ c ≠ '-' ∧ c ≠ '\n' := by
  simp only [wfKey, Bool.and_eq_true, Bool.not_eq_true', List.all_eq_true] at h
  refine ⟨by simpa using h.1.1, fun c hc => ?_⟩
  have := h.1.2 c hc
  simp only [keyCh, Bool.and_eq_true, Bool.not_eq_true', decide_eq_false_iff_not] at this
  exact ⟨this.1.1.1.1, this.1.1.1.2, this.1.1.2, this.1.2, this.2⟩

theorem wfVal_facts {v : YVal} (h : wfVal v = true) :
    ∃ vs : String, v = .s vs ∧ vs.toList ≠ [] ∧
      ∀ c ∈ vs.toList, c ≠ ':' ∧ c ≠ '-' ∧ c ≠ '\n' := by
  cases v with
  | m entries => simp [wfVal] at h
  | s vs =>
    refine ⟨vs, rfl, ?_, ?_⟩
    · simp only [wfVal, Bool.and_eq_true] at h
      simpa using h.1.1.1.1
    · intro c hc
      simp only [wfVal, Bool.and_eq_true, List.all_eq_true] at h
      have := h.1.1.1.2 c hc
      simp only [valCh, Bool.and_eq_true, Bool.not_eq_true', decide_eq_false_iff_not] at this
      exact ⟨this.1.1.2, this.1.2, this.2⟩

theorem lineChars_no_nl {k : String} {v : YVal}
    (hk : wfKey k = true) (hv : wfVal v = true) :
    ∀ c ∈ lineChars k v, c ≠ '\n' := by
  obtain ⟨-, hkc⟩ := wfKey_facts hk
  obtain ⟨vs, rfl, -, hvc⟩ := wfVal_facts hv
  intro c hc
  simp only [lineChars, List.mem_append, List.mem_cons, dumpVal] at hc
  rcases hc with h | h | h | h
  · exact (hkc c h).2.2.2.2
  · simp [h]
  · simp [h]
  · exact (hvc c h).2.2

theorem lineChars_head {k : String} {v : YVal} (hk : wfKey k = true) :
    ∃ c cs, lineChars k v = c :: cs ∧ c.isAlpha = true := by
  obtain ⟨hne, hkc⟩ := wfKey_facts hk
  rcases hlist : k.toList with _ | ⟨c, cs⟩
  · exact absurd hlist hne
  · refine ⟨c, cs ++ ':' :: ' ' :: (dumpVal v).toList, ?_, ?_⟩
    · simp only [lineChars, hlist]
      rfl
    · exact (hkc c (by simp only [hlist]; exact List.mem_cons_self c cs)).1

/-! ## Engine lemmas: running the pattern over a dumped note -/

theorem lastNewlinePos_none {w : List Char} (h : '\n' ∉ w) :
    lastNewlinePos w = none := by
  induction w with
  | nil => rfl
  | cons c cs ih =>
    have hc : c ≠ '\n' := fun hc => h (by simp [hc])
    have : '\n' ∉ cs := fun hm => h (by simp [hm])
    simp [lastNewlinePos, ih this, hc]

theorem closeAt_head_ne_nl {c : Char} {rest : List Char} (h : c ≠ '\n') :
    closeAt (c :: rest) = none := by
  rcases rest with _ | ⟨b, _ | ⟨c2, _ | ⟨d, r2⟩⟩⟩ <;> simp [closeAt, h]

theorem closeAt_second_ne_dash {b : Char} {rest : List Char} (h : b ≠ '-') :
    closeAt ('\n' :: b :: rest) = none := by
  rcases rest with _ | ⟨c2, _ | ⟨d, r2⟩⟩ <;> simp [closeAt, h]

theorem closeAt_final {Bcs : List Char} (hB : '\n' ∉ Bcs.takeWhile isSpaceCh) :
    closeAt ('\n' :: '-' :: '-' :: '-' :: '\n' :: '\n' :: Bcs) = some Bcs := by
  have hsp : isSpaceCh '\n' = true := by decide
  have htw : ('\n' :: '\n' :: Bcs).takeWhile isSpaceCh
      = '\n' :: '\n' :: Bcs.takeWhile isSpaceCh := by
    simp [List.takeWhile, hsp]
  have hlast : lastNewlinePos (('\n' :: '\n' :: Bcs).takeWhile isSpaceCh) = some 1 := by
    rw [htw]
    simp [lastNewlinePos, lastNewlinePos_none hB]
  simp [closeAt, hlast]

theorem scanClose_append_no_nl {l r : List Char} (h : ∀ c ∈ l, c ≠ '\n') :
    scanClose (l ++ r) = (scanClose r).map (fun p => (l ++ p.1, p.2)) := by
  induction l with
  | nil =>
    simp only [List.nil_append]
    cases hs : scanClose r with
    | none => simp
    | some p => simp
  | cons c l ih =>
    have hc : c ≠ '\n' := h c (by simp)
    have hl : ∀ x ∈ l, x ≠ '\n' := fun x hx => h x (by simp [hx])
    rw [List.cons_append]
    rw [show scanClose (c :: (l ++ r))
        = (scanClose (l ++ r)).map (fun p => (c :: p.1, p.2)) by
      simp [scanClose, closeAt_head_ne_nl hc]]
    rw [ih hl]
    cases hs : scanClose r with
    | none => simp
    | some p => simp

theorem scanClose_cons_nl_ne_dash {b : Char} {rest : List Char} (h : b ≠ '-') :
    scanClose ('\n' :: b :: rest)
      = (scanClose (b :: rest)).map (fun p => ('\n' :: p.1, p.2)) := by
  simp [scanClose, closeAt_second_ne_dash h]

/-- Entry well-formedness of a metadata list (the pointwise part of
`wfMeta`). -/
def wfEntries (md : Metadata) : Prop :=
  ∀ kv ∈ md, wfKey kv.1 = true ∧ wfVal kv.2 = true

theorem alpha_not_space {c : Char} (h : c.isAlpha = true) : isSpaceCh c = false := by
  cases hs : isSpaceCh c with
  | false => rfl
  | true =>
    simp only [isSpaceCh, Bool.or_eq_true, decide_eq_true_eq] at hs
    rcases hs with ((((h1 | h1) | h1) | h1) | h1) | h1 <;> subst h1 <;>
      exact absurd h (by decide)

theorem scanClose_yaml {Bcs : List Char} (hB : '\n' ∉ Bcs.takeWhile isSpaceCh) :
    ∀ md : Metadata, md ≠ [] → wfEntries md →
      scanClose (yamlChars md ++ '-' :: '-' :: '-' :: '\n' :: '\n' :: Bcs)
        = some (groupChars md, Bcs) := by
  intro md
  induction md with
  | nil => intro h; exact absurd rfl h
  | cons kv rest ih =>
    intro _ hwf
    obtain ⟨k, v⟩ := kv
    have hkv := hwf (k, v) (by simp)
    have hline := lineChars_no_nl hkv.1 hkv.2
    cases rest with
    | nil =>
      rw [show yamlChars [(k, v)] = lineChars k v ++ ['\n'] by simp [yamlChars]]
      rw [List.append_assoc]
      rw [scanClose_append_no_nl hline]
      rw [show (['\n'] : List Char) ++ '-' :: '-' :: '-' :: '\n' :: '\n' :: Bcs
          = '\n' :: '-' :: '-' :: '-' :: '\n' :: '\n' :: Bcs from rfl]
      rw [show scanClose ('\n' :: '-' :: '-' :: '-' :: '\n' :: '\n' :: Bcs)
          = some ([], Bcs) by simp [scanClose, closeAt_final hB]]
      simp [groupChars]
    | cons kv2 rest2 =>
      obtain ⟨k2, v2⟩ := kv2
      have hrest : wfEntries ((k2, v2) :: rest2) := by
        intro x hx; exact hwf x (by simp [hx])
      have hk2 := (hrest (k2, v2) (by simp)).1
      obtain ⟨c2, cs2, hc2, halpha⟩ := lineChars_head (v := v2) hk2
      have hne : c2 ≠ '-' := by
        intro hcontr
        rw [hcontr] at halpha
        exact absurd halpha (by decide)
      rw [show yamlChars ((k, v) :: (k2, v2) :: rest2)
          = lineChars k v ++ '\n' :: yamlChars ((k2, v2) :: rest2) from rfl]
      rw [List.append_assoc, List.cons_append]
      rw [scanClose_append_no_nl hline]
      have hyaml2 : yamlChars ((k2, v2) :: rest2)
          ++ '-' :: '-' :: '-' :: '\n' :: '\n' :: Bcs
          = c2 :: (cs2 ++ '\n' :: yamlChars rest2
              ++ '-' :: '-' :: '-' :: '\n' :: '\n' :: Bcs) := by
        rw [show yamlChars ((k2, v2) :: rest2)
            = lineChars k2 v2 ++ '\n' :: yamlChars rest2 from rfl, hc2]
        simp
      rw [hyaml2, scanClose_cons_nl_ne_dash hne, ← hyaml2]
      rw [ih (by simp) hrest]
      rw [show groupChars ((k, v) :: (k2, v2) :: rest2)
          = lineChars k v ++ '\n' :: groupChars ((k2, v2) :: rest2) from rfl]
      simp

theorem matchFrontmatter_cons (rest : List Char) :
    matchFrontmatter ('-' :: '-' :: '-' :: rest)
      = tryOpens rest (newlinesDesc (rest.takeWhile isSpaceCh)) := by
  simp [matchFrontmatter]

theorem matchFrontmatter_dump {md : Metadata} {B : String}
    (hmd : md ≠ []) (hwf : wfEntries md)
    (hB : '\n' ∉ B.toList.takeWhile isSpaceCh) :
    matchFrontmatter (dumpFM md B).toList = some (groupChars md, B.toList) := by
  have hiseq : md.isEmpty = false := by
    cases md with
    | nil => exact absurd rfl hmd
    | cons a b => rfl
  have hchars : (dumpFM md B).toList
      = '-' :: '-' :: '-' :: ('\n' :: (yamlChars md
          ++ '-' :: '-' :: '-' :: '\n' :: '\n' :: B.toList)) := by
    rw [dumpFM, hiseq]
    simp only [Bool.false_eq_true, if_false, str_toList_append, yamlText_toList]
    rw [show ("---\n" : String).toList = ['-', '-', '-', '\n'] from rfl,
      show ("---\n\n" : String).toList = ['-', '-', '-', '\n', '\n'] from rfl]
    simp
  rw [hchars]
  obtain ⟨c1, cs1, hc1, ha1⟩ : ∃ c cs, yamlChars md = c :: cs ∧ c.isAlpha = true := by
    rcases md with _ | ⟨⟨k, v⟩, rest⟩
    · exact absurd rfl hmd
    · obtain ⟨c1, cs1, hline, ha⟩ := lineChars_head (v := v) (hwf (k, v) (by simp)).1
      refine ⟨c1, cs1 ++ '\n' :: yamlChars rest, ?_, ha⟩
      rw [show yamlChars ((k, v) :: rest)
          = lineChars k v ++ '\n' :: yamlChars rest from rfl, hline]
      simp
  have hns : isSpaceCh c1 = false := alpha_not_space ha1
  have htw : (('\n' : Char) :: (yamlChars md
      ++ '-' :: '-' :: '-' :: '\n' :: '\n' :: B.toList)).takeWhile isSpaceCh
      = ['\n'] := by
    rw [hc1, List.cons_append]
    simp [List.takeWhile_cons, hns, show isSpaceCh '\n' = true from by decide]
  rw [matchFrontmatter_cons, htw]
  rw [show newlinesDesc ['\n'] = [0] from rfl]
  simp only [tryOpens, List.drop_succ_cons, List.drop_zero]
  rw [scanClose_yaml hB md hmd hwf]

/-! ## Loading the dumped header back -/

theorem splitNl_ne_nil (cs : List Char) : splitNl cs ≠ [] := by
  cases cs with
  | nil => simp [splitNl]
  | cons c rest =>
    simp only [splitNl]
    rcases splitNl rest with _ | ⟨h, t⟩
    · simp
    · by_cases hc : c = '\n' <;> simp [hc]

theorem splitNl_no_nl {l : List Char} (h : ∀ c ∈ l, c ≠ '\n') :
    splitNl l = [l] := by
  induction l with
  | nil => rfl
  | cons c rest ih =>
    have hc : c ≠ '\n' := h c (by simp)
    have hrest := ih (fun x hx => h x (by simp [hx]))
    simp [splitNl, hrest, hc]

theorem splitNl_append_nl {l r : List Char} (h : ∀ c ∈ l, c ≠ '\n') :
    splitNl (l ++ '\n' :: r) = l :: splitNl r := by
  induction l with
  | nil =>
    simp only [List.nil_append, splitNl]
    rcases hs : splitNl r with _ | ⟨hd, t⟩
    · exact absurd hs (splitNl_ne_nil r)
    · simp
  | cons c rest ih =>
    have hc : c ≠ '\n' := h c (by simp)
    have hrest := ih (fun x hx => h x (by simp [hx]))
    rw [List.cons_append]
    simp only [splitNl, hrest]
    simp [hc]

theorem splitNl_groupChars :
    ∀ md : Metadata, md ≠ [] → wfEntries md →
      splitNl (groupChars md) = md.map (fun kv => lineChars kv.1 kv.2) := by
  intro md
  induction md with
  | nil => intro h; exact absurd rfl h
  | cons kv rest ih =>
    intro _ hwf
    obtain ⟨k, v⟩ := kv
    have hkv := hwf (k, v) (by simp)
    have hline := lineChars_no_nl hkv.1 hkv.2
    cases rest with
    | nil =>
      rw [show groupChars [(k, v)] = lineChars k v from rfl]
      rw [splitNl_no_nl hline]
      rfl
    | cons kv2 rest2 =>
      have hrest : wfEntries (kv2 :: rest2) := fun x hx => hwf x (by simp [hx])
      rw [show groupChars ((k, v) :: kv2 :: rest2)
          = lineChars k v ++ '\n' :: groupChars (kv2 :: rest2) from rfl]
      rw [splitNl_append_nl hline, ih (by simp) hrest]
      rfl

theorem takeWhile_not_colon {l r : List Char} (h : ∀ c ∈ l, c ≠ ':') :
    (l ++ ':' :: r).takeWhile (fun c => ¬ (c = ':')) = l := by
  induction l with
  | nil => simp [List.takeWhile_cons]
  | cons c rest ih =>
    have hc : c ≠ ':' := h c (by simp)
    have hrest := ih (fun x hx => h x (by simp [hx]))
    rw [List.cons_append]
    simp only [List.takeWhile_cons]
    simp [hc]
    simpa using hrest

theorem parseLineKV_line {k : String} {v : YVal}
    (hk : wfKey k = true) (hv : wfVal v = true) :
    parseLineKV (lineChars k v) = .ok (k, v) := by
  obtain ⟨hkne, hkc⟩ := wfKey_facts hk
  obtain ⟨vs, rfl, hvne, hvc⟩ := wfVal_facts hv
  have hnc : ∀ c ∈ k.toList, c ≠ ':' := fun c hc => (hkc c hc).2.2.1
  have htake : (lineChars k (.s vs)).takeWhile (fun c => ¬ (c = ':')) = k.toList := by
    rw [show lineChars k (.s vs) = k.toList ++ ':' :: ' ' :: vs.toList from rfl]
    exact takeWhile_not_colon hnc
  have hdrop : (lineChars k (.s vs)).drop k.toList.length = ':' :: ' ' :: vs.toList := by
    rw [show lineChars k (.s vs) = k.toList ++ ':' :: ' ' :: vs.toList from rfl]
    exact List.drop_left k.toList _
  have hhead : k.toList.head? ≠ some ' ' := by
    rcases hl : k.toList with _ | ⟨c, cs⟩
    · simp
    · have := (hkc c (by simp only [hl]; exact List.mem_cons_self c cs)).1
      simp only [List.head?]
      intro hcon
      rw [Option.some.injEq] at hcon
      rw [hcon] at this
      exact absurd this (by decide)
  simp only [parseLineKV, htake, hdrop]
  rw [if_pos ⟨hkne, hhead, hvne⟩]
  rw [str_mk_toList, str_mk_toList]

theorem containsKey_append (a b : Metadata) (key : String) :
    containsKey (a ++ b) key = (containsKey a key || containsKey b key) := by
  simp [containsKey, List.any_append]

theorem dictInsert_not_contains {acc : Metadata} {k : String} {v : YVal}
    (h : containsKey acc k = false) :
    dictInsert acc k v = acc ++ [(k, v)] := by
  simp [dictInsert, h]

theorem loadLinesAux_wf :
    ∀ (md acc : Metadata), wfEntries md → keysNodup md →
      (∀ key ∈ md.map Prod.fst, containsKey acc key = false) →
      loadLinesAux acc (md.map (fun kv => lineChars kv.1 kv.2)) = .ok (acc ++ md) := by
  intro md
  induction md with
  | nil => intro acc _ _ _; simp [loadLinesAux]
  | cons kv rest ih =>
    intro acc hwf hnd hdisj
    obtain ⟨k, v⟩ := kv
    have hkv := hwf (k, v) (by simp)
    have hk_acc : containsKey acc k = false := hdisj k (by simp)
    have hknotin : k ∉ rest.map Prod.fst := by
      have := hnd
      simp only [keysNodup, List.map_cons, List.nodup_cons] at this
      exact this.1
    rw [List.map_cons]
    simp only [loadLinesAux, parseLineKV_line hkv.1 hkv.2]
    rw [dictInsert_not_contains hk_acc]
    rw [ih (acc ++ [(k, v)]) (fun x hx => hwf x (by simp [hx]))
      (by
        have := hnd
        simp only [keysNodup, List.map_cons, List.nodup_cons] at this
        exact this.2)
      (by
        intro key hkey
        rw [containsKey_append, hdisj key (by simp [hkey])]
        have hne : k ≠ key := fun hcon => hknotin (hcon ▸ hkey)
        simp [containsKey, hne])]
    simp

theorem groupChars_head {md : Metadata} (hmd : md ≠ []) (hwf : wfEntries md) :
    ∃ c cs, groupChars md = c :: cs ∧ c.isAlpha = true := by
  rcases md with _ | ⟨⟨k, v⟩, rest⟩
  · exact absurd rfl hmd
  · obtain ⟨c, cs, hline, ha⟩ := lineChars_head (v := v) (hwf (k, v) (by simp)).1
    cases rest with
    | nil => exact ⟨c, cs, by rw [show groupChars [(k, v)] = lineChars k v from rfl, hline], ha⟩
    | cons kv2 rest2 =>
      refine ⟨c, cs ++ '\n' :: groupChars (kv2 :: rest2), ?_, ha⟩
      rw [show groupChars ((k, v) :: kv2 :: rest2)
          = lineChars k v ++ '\n' :: groupChars (kv2 :: rest2) from rfl, hline]
      simp

theorem lineChars_not_blank {k : String} {v : YVal} (hk : wfKey k = true) :
    (lineChars k v).all isSpaceCh = false := by
  obtain ⟨c, cs, hline, ha⟩ := lineChars_head (v := v) hk
  rw [hline]
  simp [List.all_cons, alpha_not_space ha]

theorem yamlLoad_groupChars {md : Metadata} (hmd : md ≠ [])
    (hwf : wfEntries md) (hnd : keysNodup md) :
    yamlLoad (groupChars md) = .ok md := by
  obtain ⟨c, cs, hg, ha⟩ := groupChars_head hmd hwf
  have hnotall : (groupChars md).all isSpaceCh = false := by
    rw [hg]
    simp [List.all_cons, alpha_not_space ha]
  rw [yamlLoad, hnotall]
  simp only [Bool.false_eq_true, if_false]
  rw [splitNl_groupChars md hmd hwf]
  have hfilter : (md.map (fun kv => lineChars kv.1 kv.2)).filter
      (fun l => ¬ l.all isSpaceCh) = md.map (fun kv => lineChars kv.1 kv.2) := by
    apply List.filter_eq_self.mpr
    intro l hl
    obtain ⟨kv, hkv, hline⟩ := List.mem_map.mp hl
    rw [← hline]
    simp [lineChars_not_blank (hwf kv hkv).1]
  rw [hfilter]
  have := loadLinesAux_wf md [] hwf hnd (by intro key _; simp [containsKey])
  simpa using this

/-- Round trip of the codec on the faithfully modelled fragment: dumping
nonempty well-formed metadata over a body whose leading whitespace contains
no newline, then parsing, recovers the metadata, the body, and the
frontmatter flag. -/
theorem parseFM_dumpFM {md : Metadata} {B : String}
    (hmd : md ≠ []) (hwf : wfMeta md) (hB : goodBody B) :
    parseFM (dumpFM md B) = .ok ⟨md, B, true⟩ := by
  rw [parseFM, matchFrontmatter_dump hmd hwf.1 hB]
  show (match yamlLoad (groupChars md) with
    | Except.error e =>
      (Except.error ("Invalid YAML frontmatter: " ++ e) : Except String FMResult)
    | Except.ok md2 => Except.ok ⟨md2, String.mk B.toList, true⟩)
    = Except.ok ⟨md, B, true⟩
  rw [yamlLoad_groupChars hmd hwf.1 hwf.2]
  show (Except.ok ⟨md, String.mk B.toList, true⟩ : Except String FMResult)
    = Except.ok ⟨md, B, true⟩
  rw [str_mk_toList]

/-! ## Soundness of the pattern engine: every reported match exhibits a
header-block decomposition of the text -/

theorem get?_of_get?_takeWhile {p : Char → Bool} :
    ∀ {l : List Char} {j : Nat} {x : Char},
      (l.takeWhile p).get? j = some x → l.get? j = some x := by
  intro l
  induction l with
  | nil => intro j x h; simp [List.takeWhile] at h
  | cons c cs ih =>
    intro j x h
    by_cases hp : p c
    · rw [List.takeWhile_cons_of_pos hp] at h
      cases j with
      | zero => simpa using h
      | succ j => simpa using ih (by simpa using h)
    · rw [List.takeWhile_cons_of_neg hp] at h
      simp at h

theorem mem_takeWhile_sat {p : Char → Bool} :
    ∀ {l : List Char} {c : Char}, c ∈ l.takeWhile p → p c = true := by
  intro l
  induction l with
  | nil => intro c h; simp [List.takeWhile] at h
  | cons a as ih =>
    intro c h
    by_cases hp : p a
    · rw [List.takeWhile_cons_of_pos hp] at h
      rcases List.mem_cons.mp h with rfl | h2
      · exact hp
      · exact ih h2
    · rw [List.takeWhile_cons_of_neg hp] at h
      simp at h

theorem take_of_takeWhile_le {p : Char → Bool} :
    ∀ {l : List Char} {j : Nat}, j ≤ (l.takeWhile p).length →
      l.take j = (l.takeWhile p).take j := by
  intro l
  induction l with
  | nil => intro j _; simp [List.takeWhile]
  | cons c cs ih =>
    intro j hj
    by_cases hp : p c
    · rw [List.takeWhile_cons_of_pos hp] at hj ⊢
      cases j with
      | zero => simp
      | succ j =>
        simp only [List.take_succ_cons]
        rw [ih (by simpa using hj)]
    · rw [List.takeWhile_cons_of_neg hp] at hj
      simp at hj
      simp [hj]

theorem list_eq_take_get_drop :
    ∀ {l : List Char} {j : Nat} {x : Char}, l.get? j = some x →
      l = l.take j ++ x :: l.drop (j + 1) := by
  intro l
  induction l with
  | nil => intro j x h; simp at h
  | cons c cs ih =>
    intro j x h
    cases j with
    | zero =>
      simp only [List.get?] at h
      rw [Option.some.injEq] at h
      simp [h]
    | succ j =>
      simp only [List.get?] at h
      have := ih h
      simp only [List.take_succ_cons, List.drop_succ_cons, List.cons_append]
      exact congrArg (c :: ·) this

theorem lastNewlinePos_sound :
    ∀ {w : List Char} {j : Nat}, lastNewlinePos w = some j → w.get? j = some '\n' := by
  intro w
  induction w with
  | nil => intro j h; simp [lastNewlinePos] at h
  | cons c cs ih =>
    intro j h
    simp only [lastNewlinePos] at h
    rcases hl : lastNewlinePos cs with _ | j2
    · rw [hl] at h
      by_cases hc : c = '\n'
      · rw [if_pos hc] at h
        rw [Option.some.injEq] at h
        simp [← h, hc]
      · rw [if_neg hc] at h
        simp at h
    · rw [hl] at h
      rw [Option.some.injEq] at h
      subst h
      simpa using ih hl

theorem get?_lt_length {l : List Char} {j : Nat} {x : Char}
    (h : l.get? j = some x) : j < l.length :=
  List.get?_eq_some.mp h |>.1

theorem closeAt_sound {rem tail : List Char} (h : closeAt rem = some tail) :
    ∃ w2, (∀ c ∈ w2, isSpaceCh c = true) ∧
      rem = '\n' :: '-' :: '-' :: '-' :: (w2 ++ '\n' :: tail) := by
  rcases rem with _ | ⟨a, _ | ⟨b, _ | ⟨c, _ | ⟨d, rest2⟩⟩⟩⟩
  · simp [closeAt] at h
  · simp [closeAt] at h
  · simp [closeAt] at h
  · simp [closeAt] at h
  · simp only [closeAt] at h
    by_cases hcond : a = '\n' ∧ b = '-' ∧ c = '-' ∧ d = '-'
    · rw [if_pos hcond] at h
      obtain ⟨rfl, rfl, rfl, rfl⟩ := hcond
      rcases hln : lastNewlinePos (rest2.takeWhile isSpaceCh) with _ | j
      · rw [hln] at h; simp at h
      · rw [hln] at h
        rw [Option.some.injEq] at h
        subst h
        have hw2get := lastNewlinePos_sound hln
        have hget : rest2.get? j = some '\n' := get?_of_get?_takeWhile hw2get
        have hjle : j ≤ (rest2.takeWhile isSpaceCh).length :=
          Nat.le_of_lt (get?_lt_length hw2get)
        refine ⟨rest2.take j, ?_, ?_⟩
        · intro x hx
          rw [take_of_takeWhile_le hjle] at hx
          exact mem_takeWhile_sat (List.mem_of_mem_take hx)
        · have hsplit := list_eq_take_get_drop hget
          simp only [List.cons.injEq, true_and]
          exact hsplit
    · rw [if_neg hcond] at h
      simp at h

theorem scanClose_sound :
    ∀ {cs g tail : List Char}, scanClose cs = some (g, tail) →
      ∃ w2, (∀ c ∈ w2, isSpaceCh c = true) ∧
        cs = g ++ '\n' :: '-' :: '-' :: '-' :: (w2 ++ '\n' :: tail) := by
  intro cs
  induction cs with
  | nil => intro g tail h; simp [scanClose] at h
  | cons c rest ih =>
    intro g tail h
    simp only [scanClose] at h
    rcases hc : closeAt (c :: rest) with _ | t
    · rw [hc] at h
      rcases hs : scanClose rest with _ | p
      · rw [hs] at h; simp at h
      · rw [hs] at h
        obtain ⟨g2, t2⟩ := p
        have h2 : (c :: g2, t2) = (g, tail) := by simpa using h
        rw [Prod.mk.injEq] at h2
        obtain ⟨hg, ht⟩ := h2
        subst hg; subst ht
        obtain ⟨w2, hsp, heq⟩ := ih hs
        refine ⟨w2, hsp, ?_⟩
        rw [List.cons_append, ← heq]
    · rw [hc] at h
      rw [Option.some.injEq] at h
      have h2 : ([] : List Char) = g ∧ t = tail := by
        constructor
        · exact congrArg Prod.fst h
        · exact congrArg Prod.snd h
      obtain ⟨hg, ht⟩ := h2
      subst hg; subst ht
      obtain ⟨w2, hsp, heq⟩ := closeAt_sound hc
      refine ⟨w2, hsp, ?_⟩
      simpa using heq

theorem tryOpens_sound :
    ∀ {js : List Nat} {rest : List Char} {p : List Char × List Char},
      tryOpens rest js = some p →
      ∃ j ∈ js, scanClose (rest.drop (j + 1)) = some p := by
  intro js
  induction js with
  | nil => intro rest p h; simp [tryOpens] at h
  | cons j js ih =>
    intro rest p h
    simp only [tryOpens] at h
    rcases hs : scanClose (rest.drop (j + 1)) with _ | q
    · rw [hs] at h
      obtain ⟨j2, hj2, hsc⟩ := ih h
      exact ⟨j2, by simp [hj2], hsc⟩
    · rw [hs] at h
      rw [Option.some.injEq] at h
      exact ⟨j, by simp, by rw [hs, h]⟩

theorem newlinesAsc_sound :
    ∀ {w : List Char} {j : Nat}, j ∈ newlinesAsc w → w.get? j = some '\n' := by
  intro w
  induction w with
  | nil => intro j h; simp [newlinesAsc] at h
  | cons c cs ih =>
    intro j h
    simp only [newlinesAsc, List.mem_append] at h
    rcases h with h | h
    · by_cases hc : c = '\n'
      · rw [if_pos hc] at h
        simp only [List.mem_singleton] at h
        subst h
        simp [hc]
      · rw [if_neg hc] at h
        simp at h
    · obtain ⟨j2, hj2, rfl⟩ := List.mem_map.mp h
      simpa using ih hj2

/-- Declarative reading of the header pattern: the text decomposes as
`---`, whitespace, newline, group, newline, `---`, whitespace, newline,
rest.  (`\s*` runs are arbitrary whitespace, matching DOTALL semantics.) -/
def hasHeaderBlock (cs : List Char) : Prop :=
  ∃ w1 g w2 t, (∀ c ∈ w1, isSpaceCh c = true) ∧ (∀ c ∈ w2, isSpaceCh c = true) ∧
    cs = '-' :: '-' :: '-' ::
      (w1 ++ '\n' :: (g ++ '\n' :: '-' :: '-' :: '-' :: (w2 ++ '\n' :: t)))

theorem matchFrontmatter_sound {cs : List Char} {p : List Char × List Char}
    (h : matchFrontmatter cs = some p) : hasHeaderBlock cs := by
  rcases cs with _ | ⟨a, _ | ⟨b, _ | ⟨c, rest⟩⟩⟩
  · simp [matchFrontmatter] at h
  · simp [matchFrontmatter] at h
  · simp [matchFrontmatter] at h
  · simp only [matchFrontmatter] at h
    by_cases hcond : a = '-' ∧ b = '-' ∧ c = '-'
    · rw [if_pos hcond] at h
      obtain ⟨rfl, rfl, rfl⟩ := hcond
      obtain ⟨j, hjmem, hsc⟩ := tryOpens_sound h
      have hjasc : j ∈ newlinesAsc (rest.takeWhile isSpaceCh) := by
        simpa [newlinesDesc] using hjmem
      have hw1get := newlinesAsc_sound hjasc
      have hget : rest.get? j = some '\n' := get?_of_get?_takeWhile hw1get
      have hjle : j ≤ (rest.takeWhile isSpaceCh).length :=
        Nat.le_of_lt (get?_lt_length hw1get)
      obtain ⟨w2, hsp2, heq2⟩ := scanClose_sound hsc
      refine ⟨rest.take j, p.1, w2, p.2, ?_, hsp2, ?_⟩
      · intro x hx
        rw [take_of_takeWhile_le hjle] at hx
        exact mem_takeWhile_sat (List.mem_of_mem_take hx)
      · have hsplit := list_eq_take_get_drop hget
        simp only [List.cons.injEq, true_and]
        rw [← heq2]
        exact hsplit
    · rw [if_neg hcond] at h
      simp at h

/-! ## `VaultManager` path resolution (`_resolve_path`)

Absolute paths are modelled as lists of path components (the `parts` of a
resolved `pathlib.Path` after the root).  `Path.resolve()` is modelled
lexically over a symlink-free filesystem: `.` and empty components vanish,
`..` pops (and is a no-op at the filesystem root), exactly as `resolve`
canonicalizes in the absence of symlinks. -/

/-- A canonical absolute path: its components below the filesystem root. -/
abbrev AbsPath := List String

/-- The typed failures of the vault operations (the spec taxonomy for the
`ValueError` / `FileNotFoundError` / `FileExistsError` raised in the
source). -/
inductive VaultErr where
  | pathTraversal
  | noteNotFound
  | noteExists
  | metadataFormat (msg : String)
deriving DecidableEq

/-- `filepath.lstrip("/")`: drop every leading separator. -/
def lstripSlash (s : String) : String :=
  String.mk (s.toList.dropWhile (fun c => c = '/'))

/-- Split a character list at a separator character. -/
def splitOnCh (sep : Char) : List Char → List (List Char)
  | [] => [[]]
  | c :: cs =>
    match splitOnCh sep cs with
    | [] => [[c]]
    | h :: t => if c = sep then [] :: h :: t else (c :: h) :: t

/-- The components of a relative path as `pathlib` keeps them: split on
`/`, discarding empty and `.` components, keeping `..`. -/
def splitPath (s : String) : List String :=
  ((splitOnCh '/' s.toList).map String.mk).filter (fun c => ¬ (c = "" ∨ c = "."))

/-- Lexical canonicalization of `(root / filepath).resolve()`: fold the
components over the canonical root, popping on `..`. -/
def normalizePath (root : AbsPath) (comps : List String) : AbsPath :=
  comps.foldl (fun acc c => if c = ".." then acc.dropLast else acc ++ [c]) root

/-- Component-list prefix test (Bool form of `Path.relative_to`
succeeding). -/
def isUnder : AbsPath → AbsPath → Bool
  | [], _ => true
  | _ :: _, [] => false
  | a :: as, b :: bs => a = b && isUnder as bs

/-- The canonical target of a vault-relative input path. -/
def canonicalTarget (root : AbsPath) (filepath : String) : AbsPath :=
  normalizePath root (splitPath (lstripSlash filepath))

/-- `VaultManager._resolve_path`: strip leading separators, join against the
vault root, canonicalize, then require the result to sit at or under the
root (`Path.relative_to` succeeding), else `PathTraversalError`. -/
def resolvePath (root : AbsPath) (filepath : String) : Except VaultErr AbsPath :=
  let full := canonicalTarget root filepath
  if isUnder root full then .ok full else .error .pathTraversal

theorem isUnder_iff : ∀ (a b : AbsPath), isUnder a b = true ↔ ∃ t, b = a ++ t := by
  intro a
  induction a with
  | nil => intro b; simp [isUnder]
  | cons x xs ih =>
    intro b
    cases b with
    | nil => simp [isUnder]
    | cons y ys =>
      simp only [isUnder, Bool.and_eq_true, decide_eq_true_eq]
      constructor
      · rintro ⟨rfl, h⟩
        obtain ⟨t, rfl⟩ := (ih ys).mp h
        exact ⟨t, rfl⟩
      · rintro ⟨t, ht⟩
        rw [List.cons_append] at ht
        rw [List.cons.injEq] at ht
        obtain ⟨rfl, rfl⟩ := ht
        exact ⟨rfl, (ih _).mpr ⟨t, rfl⟩⟩

example : resolvePath ["home", "user", "vault"] "Daily/2024-01-01.md"
    = .ok ["home", "user", "vault", "Daily", "2024-01-01.md"] := rfl

example : resolvePath ["home", "user", "vault"] "../outside.md"
    = .error .pathTraversal := rfl

example : resolvePath ["home", "user", "vault"] "/absolute.md"
    = .ok ["home", "user", "vault", "absolute.md"] := rfl

example : resolvePath ["home", "user", "vault"] "notes/../escape/../../other.md"
    = .error .pathTraversal := rfl

/-! ## Filesystem model and the note operations -/

/-- The filesystem: an association of canonical absolute paths to file
contents. -/
abbrev FS := List (AbsPath × String)

/-- `path.exists()` / reading: the first entry at the path. -/
def fsLookup (fs : FS) (q : AbsPath) : Option String :=
  (fs.find? (fun e => e.1 = q)).map (fun e => e.2)

/-- `path.write_text`: overwrite in place or append a new file. -/
def fsWrite (fs : FS) (q : AbsPath) (text : String) : FS :=
  if fs.any (fun e => e.1 = q) then
    fs.map (fun e => if e.1 = q then (q, text) else e)
  else
    fs ++ [(q, text)]

/-- `VaultManager.read_note`. -/
def readNote (root : AbsPath) (fs : FS) (filepath : String) :
    Except VaultErr String :=
  match resolvePath root filepath with
  | .error e => .error e
  | .ok q =>
    match fsLookup fs q with
    | none => .error .noteNotFound
    | some t => .ok t

/-- `VaultManager.create_note`: resolve, fail if the target exists, then
write the dumped text (or the raw content when no frontmatter is given or
the given mapping is empty/falsy).  The returned pair is the filesystem
after the call and the raised failure, if any. -/
def createNote (root : AbsPath) (fs : FS) (filepath content : String)
    (fm : Option Metadata) : FS × Option VaultErr :=
  match resolvePath root filepath with
  | .error e => (fs, some e)
  | .ok q =>
    if (fsLookup fs q).isSome then (fs, some .noteExists)
    else
      let text := match fm with
        | none => content
        | some md => if md.isEmpty then content else dumpFM md content
      (fsWrite fs q text, none)

/-- `VaultManager.edit_note`: resolve, fail if absent, re-read, parse
(propagating the metadata failure), and re-dump the preserved metadata over
the new content. -/
def editNote (root : AbsPath) (fs : FS) (filepath content : String) :
    FS × Option VaultErr :=
  match resolvePath root filepath with
  | .error e => (fs, some e)
  | .ok q =>
    match fsLookup fs q with
    | none => (fs, some .noteNotFound)
    | some existing =>
      match parseFM existing with
      | .error e => (fs, some (.metadataFormat e))
      | .ok r =>
        (fsWrite fs q (if r.has_frontmatter then dumpFM r.frontmatter content
          else content), none)

/-- `VaultManager.read_frontmatter`. -/
def readFrontmatter (root : AbsPath) (fs : FS) (filepath : String) :
    Except VaultErr Metadata :=
  match resolvePath root filepath with
  | .error e => .error e
  | .ok q =>
    match fsLookup fs q with
    | none => .error .noteNotFound
    | some t =>
      match parseFM t with
      | .error e => .error (.metadataFormat e)
      | .ok r => .ok r.frontmatter

/-- `VaultManager.update_frontmatter`: resolve, fail if absent, run
`FrontmatterParser.update` (propagating the metadata failure), write the
result. -/
def updateFrontmatter (root : AbsPath) (fs : FS) (filepath : String)
    (md : Metadata) : FS × Option VaultErr :=
  match resolvePath root filepath with
  | .error e => (fs, some e)
  | .ok q =>
    match fsLookup fs q with
    | none => (fs, some .noteNotFound)
    | some t =>
      match updateFM t md with
      | .error e => (fs, some (.metadataFormat e))
      | .ok newText => (fsWrite fs q newText, none)

/-! ## Scan operations

The scan operations walk every `.md` file under the root (`rglob("*.md")`);
the vault is modelled as the list of `(relative path, content)` pairs in
enumeration order. -/

/-- A vault snapshot for the scan operations. -/
abbrev Vault := List (String × String)

/-! ### `get_backlinks` and the pattern `\[\[name(\|[^\]]+)?\]\]`

`note_name` is passed through `re.escape`, so it is matched literally; the
embedding therefore works with the literal character list of the name. -/

/-- Attempt the backlink pattern at the current position: the literal
`[[name`, then either `]]` directly or `|`, a nonempty run of
non-`]` characters (greedy `[^\]]+`), and `]]`.  Returns the text after the
match. -/
def linkRem? (name : List Char) (cs : List Char) : Option (List Char) :=
  if ('[' :: '[' :: name).isPrefixOf cs then
    match cs.drop (name.length + 2) with
    | ']' :: ']' :: r => some r
    | '|' :: r2 =>
      let al := r2.takeWhile (fun c => ¬ (c = ']'))
      if al.isEmpty then none
      else
        match r2.drop al.length with
        | ']' :: ']' :: r => some r
        | _ => none
    | _ => none
  else none

/-- Non-overlapping left-to-right scan counting `findall` matches; the
`skip` counter carries the remaining characters of the match currently
being stepped over. -/
def countLinksAux (name : List Char) : List Char → Nat → Nat
  | [], _ => 0
  | _ :: rest, skip + 1 => countLinksAux name rest skip
  | cs@(_ :: rest), 0 =>
    match linkRem? name cs with
    | some r => 1 + countLinksAux name rest (cs.length - r.length - 1)
    | none => countLinksAux name rest 0

/-- `len(link_pattern.findall(content))` for the backlink pattern of
`note_name`. -/
def countLinks (name : String) (content : String) : Nat :=
  countLinksAux name.toList content.toList 0

/-- One `get_backlinks` result entry (the `name` display field is not
modelled). -/
structure BacklinkEntry where
  path : String
  link_count : Nat
deriving DecidableEq

/-- `VaultManager.get_backlinks`: one entry per scanned note with at least
one match, carrying the match count. -/
def getBacklinks (name : String) (vault : Vault) : List BacklinkEntry :=
  vault.filterMap (fun pc =>
    let n := countLinks name pc.2
    if n = 0 then none else some ⟨pc.1, n⟩)

example : countLinks "Project A" "see [[Project A]] and [[Project A|alias]]" = 2 := rfl

example : countLinks "Project A" "[[Project A Extended]] [[XProject A]]" = 0 := rfl

example : getBacklinks "Project A"
    [("a.md", "see [[Project A]]"), ("b.md", "x [[Project A|alias]] y"),
     ("c.md", "[[Project A Extended]]")]
    = [⟨"a.md", 1⟩, ⟨"b.md", 1⟩] := rfl

/-! ### `list_tags` and the pattern `#(\w+)` -/

/-- `findall` for `#(\w+)`: a state machine over the text; the accumulator
holds the (reversed) word-character run of the tag currently being read
after a `#`.  A `#` not followed by a word character matches nothing and
scanning resumes at the next character. -/
def scanTagsAux : List Char → Option (List Char) → List String
  | [], none => []
  | [], some run => if run.isEmpty then [] else [String.mk run.reverse]
  | c :: rest, some run =>
    if isWordCh c then scanTagsAux rest (some (c :: run))
    else if run.isEmpty then
      (if c = '#' then scanTagsAux rest (some []) else scanTagsAux rest none)
    else
      String.mk run.reverse ::
        (if c = '#' then scanTagsAux rest (some []) else scanTagsAux rest none)
  | c :: rest, none =>
    if c = '#' then scanTagsAux rest (some []) else scanTagsAux rest none

/-- All `#(\w+)` matches of a note body, in order. -/
def scanTags (content : String) : List String :=
  scanTagsAux content.toList none

example : scanTags "a #tag1 and #tag2 #tag1" = ["tag1", "tag2", "tag1"] := rfl

example : scanTags "##double #x, #3num #_u end#tail" =
    ["double", "x", "3num", "_u", "tail"] := rfl

/-- One `list_tags` result entry. -/
structure TagEntry where
  tag : String
  count : Nat
  examples : List String
deriving DecidableEq

/-- One iteration of the tag aggregation loop body: bump the count of the
tag (inserting it on first encounter) and record the note path while fewer
than 3 example paths are stored. -/
def addTag (acc : List TagEntry) (path tag : String) : List TagEntry :=
  if acc.any (fun e => e.tag = tag) then
    acc.map (fun e =>
      if e.tag = tag then
        ⟨e.tag, e.count + 1,
          if e.examples.length < 3 then e.examples ++ [path] else e.examples⟩
      else e)
  else
    acc ++ [⟨tag, 1, [path]⟩]

/-- The `tag_data` dict after the scan loops: files in enumeration order,
tags of each file in match order. -/
def tagData (vault : Vault) : List TagEntry :=
  vault.foldl (fun acc pc =>
    (scanTags pc.2).foldl (fun a t => addTag a pc.1 t) acc) []

/-- Stable insert for the descending-count sort. -/
def insertTag (e : TagEntry) : List TagEntry → List TagEntry
  | [] => [e]
  | x :: xs => if x.count ≤ e.count then e :: x :: xs else x :: insertTag e xs

/-- `sorted(..., key=lambda x: -count)`: Python sorted is stable, and every
stable sort by the same key agrees with stable insertion sort. -/
def sortTags : List TagEntry → List TagEntry
  | [] => []
  | e :: es => insertTag e (sortTags es)

/-- `VaultManager.list_tags`. -/
def listTags (vault : Vault) : List TagEntry :=
  sortTags (tagData vault)

example : listTags [("n.md", "#t #t")] = [⟨"t", 2, ["n.md", "n.md"]⟩] := rfl

example : listTags [("a.md", "#x #y #y"), ("b.md", "#z #y")] =
    [⟨"y", 3, ["a.md", "a.md", "b.md"]⟩, ⟨"x", 1, ["a.md"]⟩, ⟨"z", 1, ["b.md"]⟩] := rfl

/-! ### `find_by_tag` and the pattern `#\b<tag>\b` -/

/-- `tag.lstrip("#")`. -/
def stripHash (t : String) : String :=
  String.mk (t.toList.dropWhile (fun c => c = '#'))

/-- Word-character test of an optional character; out of range counts as
non-word for `\b`. -/
def wordAt (c : Option Char) : Bool :=
  match c with
  | some c => isWordCh c
  | none => false

/-- Attempt `\b<clean>\b` just after a matched `#`: the `\b` between the
(non-word) `#` and what follows requires a word character next; after the
literal tag the classes on both sides must differ. -/
def matchAfterHash (clean rest : List Char) : Bool :=
  wordAt rest.head? && clean.isPrefixOf rest
    && (wordAt (('#' :: clean).getLast?) != wordAt (rest.drop clean.length).head?)

/-- `tag_pattern.search(content)` for the compiled `#\b<clean>\b`. -/
def hashSearch (clean : List Char) : List Char → Bool
  | [] => false
  | c :: rest => (c = '#' && matchAfterHash clean rest) || hashSearch clean rest

/-- `VaultManager.find_by_tag`: paths of the notes containing a whole-word
occurrence of the tag (the `name` display field is not modelled). -/
def findByTag (t : String) (vault : Vault) : List String :=
  vault.filterMap (fun pc =>
    if hashSearch (stripHash t).toList pc.2.toList then some pc.1 else none)

example : findByTag "custom" [("n.md", "has #customtag only")] = [] := rfl

example : findByTag "custom" [("n.md", "has #custom tag")] = ["n.md"] := rfl

example : findByTag "#project" [("a.md", "#project x"), ("b.md", "none")]
    = findByTag "project" [("a.md", "#project x"), ("b.md", "none")] := rfl

example : findByTag "tag" [("n.md", "word#tag")] = ["n.md"] := rfl

/-! ## Merge semantics (`{**existing, **new}`) -/

theorem lookupKey_eq_none {md : Metadata} {key : String}
    (h : key ∉ md.map Prod.fst) : lookupKey md key = none := by
  induction md with
  | nil => rfl
  | cons kv rest ih =>
    have hne : kv.1 ≠ key := by
      intro hcon
      exact h (by simp [← hcon])
    obtain ⟨k, v⟩ := kv
    simp only [lookupKey]
    rw [if_neg hne]
    exact ih (fun hm => h (by simp [hm]))

theorem containsKey_eq_mem (md : Metadata) (key : String) :
    containsKey md key = true ↔ key ∈ md.map Prod.fst := by
  induction md with
  | nil => simp [containsKey]
  | cons kv rest ih =>
    simp only [containsKey, List.any_cons, Bool.or_eq_true, decide_eq_true_eq,
      List.map_cons, List.mem_cons] at ih ⊢
    constructor
    · rintro (h | h)
      · exact Or.inl h.symm
      · exact Or.inr (ih.mp h)
    · rintro (h | h)
      · exact Or.inl h.symm
      · exact Or.inr (ih.mpr h)

theorem containsKey_cons_ne {kv : String × YVal} {rest : Metadata} {key : String}
    (hne : kv.1 ≠ key) (h : containsKey (kv :: rest) key = true) :
    containsKey rest key = true := by
  simp only [containsKey, List.any_cons, Bool.or_eq_true, decide_eq_true_eq] at h ⊢
  rcases h with h | h
  · exact absurd h hne
  · exact h

theorem lookupKey_append (a b : Metadata) (key : String) :
    lookupKey (a ++ b) key
      = (lookupKey a key).orElse (fun _ => lookupKey b key) := by
  induction a with
  | nil => simp [lookupKey, Option.orElse]
  | cons kv rest ih =>
    obtain ⟨k, v⟩ := kv
    by_cases h : k = key
    · simp [lookupKey, h, Option.orElse]
    · simp only [List.cons_append, lookupKey]
      rw [if_neg h, if_neg h]
      exact ih

theorem lookupKey_map_update {md : Metadata} {key : String} {v : YVal}
    (h : containsKey md key = true) :
    lookupKey (md.map (fun kv => if kv.1 = key then (key, v) else kv)) key
      = some v := by
  induction md with
  | nil => simp [containsKey] at h
  | cons kv rest ih =>
    obtain ⟨k2, v2⟩ := kv
    by_cases h2 : k2 = key
    · rw [List.map_cons,
        show (if ((k2, v2) : String × YVal).1 = key then (key, v) else (k2, v2))
          = (key, v) by rw [if_pos h2]]
      simp [lookupKey]
    · rw [List.map_cons,
        show (if ((k2, v2) : String × YVal).1 = key then (key, v) else (k2, v2))
          = (k2, v2) by rw [if_neg h2]]
      simp only [lookupKey]
      rw [if_neg h2]
      exact ih (containsKey_cons_ne h2 h)

theorem lookupKey_map_update_other {md : Metadata} {key key2 : String} {v : YVal}
    (h : key2 ≠ key) :
    lookupKey (md.map (fun kv => if kv.1 = key then (key, v) else kv)) key2
      = lookupKey md key2 := by
  induction md with
  | nil => rfl
  | cons kv rest ih =>
    obtain ⟨k2, v2⟩ := kv
    by_cases h2 : k2 = key
    · rw [List.map_cons,
        show (if ((k2, v2) : String × YVal).1 = key then (key, v) else (k2, v2))
          = (key, v) by rw [if_pos h2]]
      simp only [lookupKey]
      rw [if_neg (fun hcon => h hcon.symm), if_neg (by rw [h2]; exact fun hcon => h hcon.symm)]
      exact ih
    · rw [List.map_cons,
        show (if ((k2, v2) : String × YVal).1 = key then (key, v) else (k2, v2))
          = (k2, v2) by rw [if_neg h2]]
      simp only [lookupKey]
      by_cases h3 : k2 = key2
      · rw [if_pos h3, if_pos h3]
      · rw [if_neg h3, if_neg h3]
        exact ih

theorem keys_map_update (md : Metadata) (key : String) (v : YVal) :
    (md.map (fun kv => if kv.1 = key then (key, v) else kv)).map Prod.fst
      = md.map Prod.fst := by
  induction md with
  | nil => rfl
  | cons kv rest ih =>
    obtain ⟨k2, v2⟩ := kv
    by_cases h2 : k2 = key
    · rw [List.map_cons,
        show (if ((k2, v2) : String × YVal).1 = key then (key, v) else (k2, v2))
          = (key, v) by rw [if_pos h2]]
      simp only [List.map_cons, ih]
      rw [h2]
    · rw [List.map_cons,
        show (if ((k2, v2) : String × YVal).1 = key then (key, v) else (k2, v2))
          = (k2, v2) by rw [if_neg h2]]
      simp only [List.map_cons, ih]

theorem lookupKey_dictInsert_same (md : Metadata) (key : String) (v : YVal) :
    lookupKey (dictInsert md key v) key = some v := by
  rw [dictInsert]
  by_cases hc : containsKey md key = true
  · rw [if_pos hc]
    exact lookupKey_map_update hc
  · rw [if_neg hc, lookupKey_append]
    rw [lookupKey_eq_none (fun hm => hc ((containsKey_eq_mem md key).mpr hm))]
    simp [lookupKey, Option.orElse]

theorem lookupKey_dictInsert_other {md : Metadata} {key key2 : String} {v : YVal}
    (h : key2 ≠ key) :
    lookupKey (dictInsert md key v) key2 = lookupKey md key2 := by
  rw [dictInsert]
  by_cases hc : containsKey md key = true
  · rw [if_pos hc]
    exact lookupKey_map_update_other h
  · rw [if_neg hc, lookupKey_append]
    rw [show lookupKey [(key, v)] key2 = none by
      simp only [lookupKey]
      rw [if_neg (fun hcon => h (Eq.symm hcon))]]
    cases lookupKey md key2 <;> rfl

theorem keysNodup_dictInsert {md : Metadata} (key : String) (v : YVal)
    (h : keysNodup md) : keysNodup (dictInsert md key v) := by
  rw [dictInsert]
  by_cases hc : containsKey md key = true
  · rw [if_pos hc, keysNodup, keys_map_update]
    exact h
  · rw [if_neg hc, keysNodup, List.map_append]
    simp only [List.map_cons, List.map_nil]
    rw [List.nodup_append]
    refine ⟨h, by simp, ?_⟩
    intro x hx
    simp only [List.mem_singleton]
    intro hcon
    subst hcon
    exact hc ((containsKey_eq_mem md x).mpr hx)

theorem lookupKey_mergeDicts (a : Metadata) {b : Metadata} (hb : keysNodup b) :
    ∀ key, lookupKey (mergeDicts a b) key
      = (lookupKey b key).orElse (fun _ => lookupKey a key) := by
  induction b generalizing a with
  | nil => intro key; simp [mergeDicts, lookupKey, Option.orElse]
  | cons kv rest ih =>
    intro key
    obtain ⟨k, v⟩ := kv
    have hrest : keysNodup rest := by
      have := hb
      simp only [keysNodup, List.map_cons, List.nodup_cons] at this
      exact this.2
    have hknotin : k ∉ rest.map Prod.fst := by
      have := hb
      simp only [keysNodup, List.map_cons, List.nodup_cons] at this
      exact this.1
    rw [show mergeDicts a ((k, v) :: rest) = mergeDicts (dictInsert a k v) rest from rfl]
    rw [ih (dictInsert a k v) hrest key]
    by_cases hk : key = k
    · subst hk
      rw [lookupKey_eq_none hknotin]
      simp only [lookupKey, if_pos rfl]
      rw [lookupKey_dictInsert_same]
      rfl
    · simp only [lookupKey]
      rw [if_neg (fun hcon => hk hcon.symm)]
      rw [lookupKey_dictInsert_other hk]

theorem keysNodup_mergeDicts (b : Metadata) {a : Metadata} (ha : keysNodup a) :
    keysNodup (mergeDicts a b) := by
  induction b generalizing a with
  | nil => exact ha
  | cons kv rest ih =>
    rw [show mergeDicts a (kv :: rest) = mergeDicts (dictInsert a kv.1 kv.2) rest from rfl]
    exact ih (keysNodup_dictInsert kv.1 kv.2 ha)

theorem mergeDicts_nil_left {b : Metadata} (hb : keysNodup b) :
    mergeDicts [] b = b := by
  suffices h : ∀ (b a : Metadata), keysNodup (a ++ b) → mergeDicts a b = a ++ b by
    simpa using h b [] (by simpa using hb)
  intro b
  induction b with
  | nil => intro a _; simp [mergeDicts]
  | cons kv rest ih =>
    intro a hnd
    obtain ⟨k, v⟩ := kv
    have hnc : containsKey a k = false := by
      cases hcc : containsKey a k
      · rfl
      · exfalso
        have hmem := (containsKey_eq_mem a k).mp hcc
        rw [keysNodup, List.map_append, List.nodup_append] at hnd
        exact hnd.2.2 hmem (by simp)
    rw [show mergeDicts a ((k, v) :: rest) = mergeDicts (dictInsert a k v) rest from rfl]
    rw [dictInsert_not_contains hnc]
    rw [ih (a ++ [(k, v)]) (by simpa using hnd)]
    simp

theorem parseFM_no_fm {text : String} {r : FMResult}
    (h : parseFM text = .ok r) (hfm : r.has_frontmatter = false) :
    r.frontmatter = [] ∧ r.content = text := by
  rw [parseFM] at h
  rcases hm : matchFrontmatter text.toList with _ | p
  · rw [hm] at h
    rw [Except.ok.injEq] at h
    rw [← h]
    exact ⟨rfl, rfl⟩
  · rw [hm] at h
    obtain ⟨g, rest⟩ := p
    have h2 : (match yamlLoad g with
      | Except.error e =>
        (Except.error ("Invalid YAML frontmatter: " ++ e) : Except String FMResult)
      | Except.ok md => Except.ok ⟨md, String.mk rest, true⟩) = Except.ok r := h
    rcases hy : yamlLoad g with e | md <;> rw [hy] at h2
    · simp at h2
    · rw [Except.ok.injEq] at h2
      rw [← h2] at hfm
      simp at hfm

/-! ## Tag aggregation: occurrence-level characterization of `list_tags` -/

/-- All `(tag, path)` occurrence pairs of the scan, in scan order. -/
def tagOccs : Vault → List (String × String)
  | [] => []
  | pc :: rest => (scanTags pc.2).map (fun t => (t, pc.1)) ++ tagOccs rest

/-- The note-path occurrences of one tag, in scan order (one entry per
occurrence, so a path repeats when a tag occurs several times in one
note). -/
def occPaths (vault : Vault) (t : String) : List String :=
  ((tagOccs vault).filter (fun o => o.1 = t)).map Prod.snd

/-- Total occurrence count of one tag across the vault. -/
def countOcc (vault : Vault) (t : String) : Nat :=
  ((tagOccs vault).filter (fun o => o.1 = t)).length

/-- Distinct elements in order of first appearance, relative to an
already-seen set. -/
def firstDedupAux (seen : List String) : List String → List String
  | [] => []
  | t :: ts =>
    if t ∈ seen then firstDedupAux seen ts else t :: firstDedupAux (t :: seen) ts

/-- Distinct elements in order of first appearance. -/
def firstDedup (l : List String) : List String :=
  firstDedupAux [] l

/-- The per-entry update `addTag` applies under the `tag in tag_data`
branch. -/
def bumpIf (t p : String) (x : TagEntry) : TagEntry :=
  if x.tag = t then
    ⟨x.tag, x.count + 1,
      if x.examples.length < 3 then x.examples ++ [p] else x.examples⟩
  else x

theorem addTag_eq (acc : List TagEntry) (p t : String) :
    addTag acc p t = if acc.any (fun e => e.tag = t) then acc.map (bumpIf t p)
      else acc ++ [⟨t, 1, [p]⟩] := rfl

theorem bumpIf_tag (t p : String) (x : TagEntry) : (bumpIf t p x).tag = x.tag := by
  rw [bumpIf]
  by_cases h : x.tag = t
  · rw [if_pos h]
  · rw [if_neg h]

theorem bumpIf_of_ne {t p : String} {x : TagEntry} (h : x.tag ≠ t) :
    bumpIf t p x = x := by
  rw [bumpIf, if_neg h]

/-- The aggregate effect on one tag of a run of its occurrences. -/
def bumpEntry (t p : String) : Option TagEntry → TagEntry
  | none => ⟨t, 1, [p]⟩
  | some e =>
    ⟨e.tag, e.count + 1,
      if e.examples.length < 3 then e.examples ++ [p] else e.examples⟩

/-- The stored entry of a tag (`tag_data[tag]`). -/
def entryFor (l : List TagEntry) (t : String) : Option TagEntry :=
  l.find? (fun e => e.tag = t)

/-- Replay a run of occurrences of one tag onto its optional entry. -/
def applyOccs (t : String) : List (String × String) → Option TagEntry → Option TagEntry
  | [], e => e
  | o :: os, e => applyOccs t os (some (bumpEntry t o.2 e))

theorem anyTag_eq_mem (acc : List TagEntry) (t : String) :
    acc.any (fun e => e.tag = t) = true ↔ t ∈ acc.map (fun e => e.tag) := by
  induction acc with
  | nil => simp
  | cons x xs ih =>
    simp only [List.any_cons, Bool.or_eq_true, decide_eq_true_eq,
      List.map_cons, List.mem_cons] at ih ⊢
    constructor
    · rintro (h | h)
      · exact Or.inl h.symm
      · exact Or.inr (ih.mp h)
    · rintro (h | h)
      · exact Or.inl h.symm
      · exact Or.inr (ih.mpr h)

theorem addTag_cons_ne {e : TagEntry} {es : List TagEntry} {p t : String}
    (h : e.tag ≠ t) : addTag (e :: es) p t = e :: addTag es p t := by
  rw [addTag_eq, addTag_eq]
  have hany : (e :: es).any (fun x => x.tag = t) = es.any (fun x => x.tag = t) := by
    simp [List.any_cons, h]
  rw [hany]
  by_cases hc : es.any (fun x => x.tag = t) = true
  · rw [if_pos hc, if_pos hc, List.map_cons, bumpIf_of_ne h]
  · rw [if_neg hc, if_neg hc, List.cons_append]

theorem find?_map_bumpIf_ne {es : List TagEntry} {t t2 p : String} (h : t2 ≠ t) :
    (es.map (bumpIf t p)).find? (fun e => e.tag = t2)
      = es.find? (fun e => e.tag = t2) := by
  induction es with
  | nil => rfl
  | cons x xs ih =>
    rw [List.map_cons]
    by_cases h2 : x.tag = t2
    · have hb : (bumpIf t p x).tag = t2 := by rw [bumpIf_tag]; exact h2
      rw [List.find?_cons_of_pos _ (by simpa using hb),
        List.find?_cons_of_pos _ (by simpa using h2)]
      rw [bumpIf_of_ne (by rw [h2]; exact h)]
    · have hb : (bumpIf t p x).tag ≠ t2 := by rw [bumpIf_tag]; exact h2
      rw [List.find?_cons_of_neg _ (by simpa using hb),
        List.find?_cons_of_neg _ (by simpa using h2)]
      exact ih

theorem entryFor_addTag_same (acc : List TagEntry) (p t : String) :
    entryFor (addTag acc p t) t = some (bumpEntry t p (entryFor acc t)) := by
  induction acc with
  | nil =>
    rw [addTag_eq]
    simp only [List.any_nil, Bool.false_eq_true, if_false, List.nil_append]
    rw [entryFor, List.find?_cons_of_pos _ (by simp)]
    rfl
  | cons e es ih =>
    by_cases h : e.tag = t
    · rw [addTag_eq, if_pos (by simp [List.any_cons, h]), List.map_cons]
      rw [entryFor,
        List.find?_cons_of_pos _ (by simp [bumpIf_tag, h]),
        show entryFor (e :: es) t = some e from by
          rw [entryFor, List.find?_cons_of_pos _ (by simp [h])]]
      rw [bumpEntry, bumpIf, if_pos h]
    · rw [addTag_cons_ne h]
      rw [entryFor, List.find?_cons_of_neg _ (by simp [h]), ← entryFor, ih]
      rw [show entryFor (e :: es) t = entryFor es t from by
        rw [entryFor, List.find?_cons_of_neg _ (by simp [h]), entryFor]]

theorem entryFor_addTag_ne {acc : List TagEntry} {p t t2 : String} (h : t2 ≠ t) :
    entryFor (addTag acc p t) t2 = entryFor acc t2 := by
  induction acc with
  | nil =>
    rw [addTag_eq]
    simp only [List.any_nil, Bool.false_eq_true, if_false, List.nil_append]
    rw [entryFor, List.find?_cons_of_neg _ (by simpa using fun hc => h (Eq.symm hc)),
      entryFor]
  | cons e es ih =>
    by_cases h2 : e.tag = t
    · rw [addTag_eq, if_pos (by simp [List.any_cons, h2]), List.map_cons]
      by_cases h3 : e.tag = t2
      · exact absurd (h3.symm.trans h2) h
      · rw [entryFor, List.find?_cons_of_neg _ (by simp [bumpIf_tag, h3]),
          find?_map_bumpIf_ne h]
        rw [show entryFor (e :: es) t2 = es.find? (fun x => x.tag = t2) from by
          rw [entryFor, List.find?_cons_of_neg _ (by simp [h3])]]
    · rw [addTag_cons_ne h2]
      by_cases h3 : e.tag = t2
      · rw [entryFor, List.find?_cons_of_pos _ (by simp [h3]),
          show entryFor (e :: es) t2 = some e from by
            rw [entryFor, List.find?_cons_of_pos _ (by simp [h3])]]
      · rw [entryFor, List.find?_cons_of_neg _ (by simp [h3]), ← entryFor, ih]
        rw [show entryFor (e :: es) t2 = entryFor es t2 from by
          rw [entryFor, List.find?_cons_of_neg _ (by simp [h3]), entryFor]]

theorem tagData_eq_fold (vault : Vault) :
    tagData vault = (tagOccs vault).foldl (fun a o => addTag a o.2 o.1) [] := by
  suffices h : ∀ (v : Vault) (acc : List TagEntry),
      v.foldl (fun acc pc => (scanTags pc.2).foldl (fun a t => addTag a pc.1 t) acc) acc
        = (tagOccs v).foldl (fun a o => addTag a o.2 o.1) acc by
    exact h vault []
  intro v
  induction v with
  | nil => intro acc; rfl
  | cons pc rest ih =>
    intro acc
    rw [List.foldl_cons, ih, show tagOccs (pc :: rest)
      = (scanTags pc.2).map (fun t => (t, pc.1)) ++ tagOccs rest from rfl]
    rw [List.foldl_append, List.foldl_map]

theorem entryFor_fold_occs :
    ∀ (occs : List (String × String)) (acc : List TagEntry) (t : String),
      entryFor (occs.foldl (fun a o => addTag a o.2 o.1) acc) t
        = applyOccs t (occs.filter (fun o => o.1 = t)) (entryFor acc t) := by
  intro occs
  induction occs with
  | nil => intro acc t; rfl
  | cons o os ih =>
    intro acc t
    rw [List.foldl_cons, ih]
    by_cases h : o.1 = t
    · rw [List.filter_cons_of_pos (by simpa using h)]
      rw [show applyOccs t (o :: os.filter (fun o => o.1 = t)) (entryFor acc t)
          = applyOccs t (os.filter (fun o => o.1 = t))
              (some (bumpEntry t o.2 (entryFor acc t))) from rfl]
      rw [show addTag acc o.2 o.1 = addTag acc o.2 t by rw [h]]
      rw [entryFor_addTag_same]
    · rw [List.filter_cons_of_neg (by simpa using h)]
      rw [entryFor_addTag_ne (fun hc => h (Eq.symm hc))]

theorem applyOccs_build (t : String) :
    ∀ (os : List (String × String)) (pre : List String),
      applyOccs t os (some ⟨t, pre.length, pre.take 3⟩)
        = some ⟨t, (pre ++ os.map Prod.snd).length, (pre ++ os.map Prod.snd).take 3⟩ := by
  intro os
  induction os with
  | nil => intro pre; simp [applyOccs]
  | cons o os ih =>
    intro pre
    rw [show applyOccs t (o :: os) (some ⟨t, pre.length, pre.take 3⟩)
        = applyOccs t os (some (bumpEntry t o.2 (some ⟨t, pre.length, pre.take 3⟩))) from rfl]
    have hlen3 : (pre.take 3).length = min 3 pre.length := List.length_take 3 pre
    have hbump : bumpEntry t o.2 (some ⟨t, pre.length, pre.take 3⟩)
        = ⟨t, (pre ++ [o.2]).length, (pre ++ [o.2]).take 3⟩ := by
      by_cases hlen : pre.length < 3
      · rw [bumpEntry, if_pos (by rw [hlen3]; omega)]
        rw [List.take_of_length_le (Nat.le_of_lt hlen),
          List.take_of_length_le (by simp; omega)]
        simp
      · rw [bumpEntry, if_neg (by rw [hlen3]; omega)]
        rw [List.take_append_eq_append_take,
          show 3 - pre.length = 0 by omega]
        simp
    rw [hbump, ih (pre ++ [o.2])]
    simp [List.append_assoc]

theorem entryFor_tagData (vault : Vault) (t : String) :
    entryFor (tagData vault) t
      = if countOcc vault t = 0 then none
        else some ⟨t, countOcc vault t, (occPaths vault t).take 3⟩ := by
  rw [tagData_eq_fold, entryFor_fold_occs]
  rw [show entryFor [] t = none from rfl]
  rcases hf : (tagOccs vault).filter (fun o => o.1 = t) with _ | ⟨o, os⟩
  · rw [hf]
    rw [show applyOccs t [] none = none from rfl]
    rw [if_pos (by rw [countOcc, hf]; rfl)]
  · rw [hf]
    rw [show applyOccs t (o :: os) none
      = applyOccs t os (some (bumpEntry t o.2 none)) from rfl]
    rw [show bumpEntry t o.2 none = ⟨t, ([o.2] : List String).length, ([o.2] : List String).take 3⟩ from rfl]
    rw [applyOccs_build t os [o.2]]
    rw [if_neg (by rw [countOcc, hf]; simp)]
    rw [countOcc, occPaths, hf]
    simp

theorem tags_map_bumpIf (t p : String) :
    ∀ (xs : List TagEntry),
      (xs.map (bumpIf t p)).map (fun e => e.tag) = xs.map (fun e => e.tag) := by
  intro xs
  induction xs with
  | nil => rfl
  | cons x rest ih => simp [bumpIf_tag, ih]

theorem tags_addTag (acc : List TagEntry) (p t : String) :
    (addTag acc p t).map (fun e => e.tag)
      = if acc.any (fun e => e.tag = t) then acc.map (fun e => e.tag)
        else acc.map (fun e => e.tag) ++ [t] := by
  rw [addTag_eq]
  by_cases hc : acc.any (fun e => e.tag = t) = true
  · rw [if_pos hc, if_pos hc]
    exact tags_map_bumpIf t p acc
  · rw [if_neg hc, if_neg hc, List.map_append]
    rfl

theorem firstDedupAux_seen_ext :
    ∀ (l : List String) (s1 s2 : List String),
      (∀ x, x ∈ s1 ↔ x ∈ s2) → firstDedupAux s1 l = firstDedupAux s2 l := by
  intro l
  induction l with
  | nil => intro s1 s2 _; rfl
  | cons t ts ih =>
    intro s1 s2 hext
    simp only [firstDedupAux]
    by_cases hm : t ∈ s1
    · rw [if_pos hm, if_pos ((hext t).mp hm)]
      exact ih s1 s2 hext
    · rw [if_neg hm, if_neg (fun hc => hm ((hext t).mpr hc))]
      rw [ih (t :: s1) (t :: s2) (by intro x; simp [hext x])]

theorem tags_fold_occs :
    ∀ (occs : List (String × String)) (acc : List TagEntry),
      ((occs.foldl (fun a o => addTag a o.2 o.1) acc).map (fun e => e.tag))
        = acc.map (fun e => e.tag)
          ++ firstDedupAux (acc.map (fun e => e.tag)) (occs.map Prod.fst) := by
  intro occs
  induction occs with
  | nil => intro acc; simp [firstDedupAux]
  | cons o os ih =>
    intro acc
    rw [List.foldl_cons, ih, List.map_cons]
    by_cases hm : o.1 ∈ acc.map (fun e => e.tag)
    · rw [tags_addTag, if_pos ((anyTag_eq_mem acc o.1).mpr hm)]
      simp only [firstDedupAux]
      rw [if_pos hm]
    · rw [tags_addTag, if_neg (fun hc => hm ((anyTag_eq_mem acc o.1).mp hc))]
      simp only [firstDedupAux]
      rw [if_neg hm]
      rw [firstDedupAux_seen_ext (os.map Prod.fst)
        (acc.map (fun e => e.tag) ++ [o.1]) (o.1 :: acc.map (fun e => e.tag))
        (by intro x; simp [or_comm])]
      simp

theorem tags_tagData (vault : Vault) :
    (tagData vault).map (fun e => e.tag) = firstDedup ((tagOccs vault).map Prod.fst) := by
  rw [tagData_eq_fold, tags_fold_occs, firstDedup]
  rfl

theorem firstDedupAux_nodup :
    ∀ (l seen : List String),
      (firstDedupAux seen l).Nodup ∧ ∀ x ∈ firstDedupAux seen l, x ∉ seen := by
  intro l
  induction l with
  | nil => intro seen; simp [firstDedupAux]
  | cons t ts ih =>
    intro seen
    simp only [firstDedupAux]
    by_cases hm : t ∈ seen
    · rw [if_pos hm]
      exact ih seen
    · rw [if_neg hm]
      obtain ⟨hnd, hnotin⟩ := ih (t :: seen)
      refine ⟨List.nodup_cons.mpr ⟨fun hc => hnotin t hc (by simp), hnd⟩, ?_⟩
      intro x hx
      rcases List.mem_cons.mp hx with rfl | hx2
      · exact hm
      · intro hc
        exact hnotin x hx2 (by simp [hc])

theorem tagsNodup_tagData (vault : Vault) :
    ((tagData vault).map (fun e => e.tag)).Nodup := by
  rw [tags_tagData, firstDedup]
  exact (firstDedupAux_nodup _ []).1

theorem entryFor_of_mem {l : List TagEntry} {e : TagEntry} (hm : e ∈ l)
    (hnd : (l.map (fun x => x.tag)).Nodup) : entryFor l e.tag = some e := by
  induction l with
  | nil => simp at hm
  | cons x xs ih =>
    rcases List.mem_cons.mp hm with rfl | hm2
    · rw [entryFor, List.find?_cons_of_pos _ (by simp)]
    · by_cases hx : x.tag = e.tag
      · exfalso
        simp only [List.map_cons, List.nodup_cons] at hnd
        exact hnd.1 (hx ▸ List.mem_map.mpr ⟨e, hm2, rfl⟩)
      · rw [entryFor, List.find?_cons_of_neg _ (by simpa using fun hc => hx hc)]
        rw [← entryFor]
        exact ih hm2 (by
          simp only [List.map_cons, List.nodup_cons] at hnd
          exact hnd.2)

/-! ### The stable descending sort -/

theorem mem_insertTag {x e : TagEntry} :
    ∀ {l : List TagEntry}, x ∈ insertTag e l ↔ x = e ∨ x ∈ l := by
  intro l
  induction l with
  | nil => simp [insertTag]
  | cons y ys ih =>
    rw [insertTag]
    by_cases h : y.count ≤ e.count
    · rw [if_pos h]
      simp [List.mem_cons]
    · rw [if_neg h]
      simp only [List.mem_cons, ih]
      tauto

theorem mem_sortTags {x : TagEntry} :
    ∀ {l : List TagEntry}, x ∈ sortTags l ↔ x ∈ l := by
  intro l
  induction l with
  | nil => simp [sortTags]
  | cons e es ih =>
    rw [sortTags, mem_insertTag]
    simp [ih]

theorem pairwise_insertTag {e : TagEntry} :
    ∀ {l : List TagEntry},
      List.Pairwise (fun a b => b.count ≤ a.count) l →
      List.Pairwise (fun a b => b.count ≤ a.count) (insertTag e l) := by
  intro l
  induction l with
  | nil => intro _; simp [insertTag]
  | cons x xs ih =>
    intro hp
    rw [List.pairwise_cons] at hp
    rw [insertTag]
    by_cases h : x.count ≤ e.count
    · rw [if_pos h]
      rw [List.pairwise_cons]
      refine ⟨?_, List.pairwise_cons.mpr hp⟩
      intro y hy
      rcases List.mem_cons.mp hy with rfl | hy2
      · exact h
      · exact Nat.le_trans (hp.1 y hy2) h
    · rw [if_neg h]
      rw [List.pairwise_cons]
      refine ⟨?_, ih hp.2⟩
      intro y hy
      rcases mem_insertTag.mp hy with rfl | hy2
      · exact Nat.le_of_lt (Nat.lt_of_not_le h)
      · exact hp.1 y hy2

theorem sortTags_sorted (l : List TagEntry) :
    List.Pairwise (fun a b => b.count ≤ a.count) (sortTags l) := by
  induction l with
  | nil => simp [sortTags]
  | cons e es ih => exact pairwise_insertTag ih

theorem filter_insertTag (c : Nat) (e : TagEntry) :
    ∀ (l : List TagEntry),
      (insertTag e l).filter (fun x => x.count = c)
        = if e.count = c then e :: l.filter (fun x => x.count = c)
          else l.filter (fun x => x.count = c) := by
  intro l
  induction l with
  | nil =>
    rw [insertTag]
    by_cases h : e.count = c
    · rw [if_pos h, List.filter_cons_of_pos (by simpa using h)]
    · rw [if_neg h, List.filter_cons_of_neg (by simpa using h)]
  | cons x xs ih =>
    rw [insertTag]
    by_cases h : x.count ≤ e.count
    · rw [if_pos h]
      by_cases he : e.count = c
      · rw [if_pos he, List.filter_cons_of_pos (by simpa using he)]
      · rw [if_neg he, List.filter_cons_of_neg (by simpa using he)]
    · rw [if_neg h]
      by_cases hx : x.count = c
      · rw [List.filter_cons_of_pos (by simpa using hx),
          List.filter_cons_of_pos (by simpa using hx), ih]
        by_cases he : e.count = c
        · exfalso
          exact h (by rw [hx, he])
        · rw [if_neg he, if_neg he]
      · rw [List.filter_cons_of_neg (by simpa using hx),
          List.filter_cons_of_neg (by simpa using hx), ih]

theorem filter_sortTags (c : Nat) :
    ∀ (l : List TagEntry),
      (sortTags l).filter (fun x => x.count = c) = l.filter (fun x => x.count = c) := by
  intro l
  induction l with
  | nil => rfl
  | cons e es ih =>
    rw [sortTags, filter_insertTag, ih]
    by_cases he : e.count = c
    · rw [if_pos he, List.filter_cons_of_pos (by simpa using he)]
    · rw [if_neg he, List.filter_cons_of_neg (by simpa using he)]

/-! ## Backlink pattern soundness -/

theorem isPrefixOf_decomp {l cs : List Char} (h : l.isPrefixOf cs = true) :
    cs = l ++ cs.drop l.length := by
  obtain ⟨t, rfl⟩ := List.isPrefixOf_iff_prefix.mp h
  rw [List.drop_left]

theorem linkRem?_sound {name cs r : List Char} (h : linkRem? name cs = some r) :
    cs = '[' :: '[' :: (name ++ ']' :: ']' :: r)
    ∨ ∃ a, a ≠ [] ∧ (∀ c ∈ a, c ≠ ']') ∧
        cs = '[' :: '[' :: (name ++ '|' :: (a ++ ']' :: ']' :: r)) := by
  rw [linkRem?] at h
  by_cases hp : ('[' :: '[' :: name).isPrefixOf cs = true
  · rw [if_pos hp] at h
    have hcs : cs = ('[' :: '[' :: name) ++ cs.drop (name.length + 2) := by
      have := isPrefixOf_decomp hp
      simpa using this
    split at h
    · rename_i r0 heq
      rw [Option.some.injEq] at h
      subst h
      left
      rw [hcs, heq]
      simp
    · rename_i r2 heq
      by_cases he : (r2.takeWhile (fun c => ¬ (c = ']'))).isEmpty = true
      · rw [if_pos he] at h
        simp at h
      · rw [if_neg he] at h
        split at h
        · rename_i r0 heq2
          rw [Option.some.injEq] at h
          right
          refine ⟨r2.takeWhile (fun c => ¬ (c = ']')), ?_, ?_, ?_⟩
          · simpa using he
          · intro c hc
            have := mem_takeWhile_sat hc
            simpa using this
          · have hr2 : r2 = r2.takeWhile (fun c => ¬ (c = ']')) ++ ']' :: ']' :: r0 := by
              conv_lhs => rw [← List.take_append_drop
                ((r2.takeWhile (fun c => ¬ (c = ']'))).length) r2]
              rw [take_of_takeWhile_le (Nat.le_refl _), List.take_length, heq2]
            rw [hcs, heq, ← h]
            conv_lhs => rw [hr2]
            rfl
        · simp at h
    · simp at h
  · rw [if_neg hp] at h
    simp at h

theorem getBacklinks_mem {name : String} {vault : Vault} {e : BacklinkEntry} :
    e ∈ getBacklinks name vault
      ↔ ∃ pc ∈ vault, countLinks name pc.2 ≠ 0
          ∧ e = ⟨pc.1, countLinks name pc.2⟩ := by
  rw [getBacklinks, List.mem_filterMap]
  constructor
  · rintro ⟨pc, hm, hf⟩
    by_cases hn : countLinks name pc.2 = 0
    · rw [if_pos hn] at hf
      simp at hf
    · rw [if_neg hn] at hf
      rw [Option.some.injEq] at hf
      exact ⟨pc, hm, hn, hf.symm⟩
  · rintro ⟨pc, hm, hn, rfl⟩
    exact ⟨pc, hm, by rw [if_neg hn]⟩

theorem getBacklinks_paths_nodup {name : String} :
    ∀ {vault : Vault}, (vault.map Prod.fst).Nodup →
      ((getBacklinks name vault).map (fun e => e.path)).Nodup := by
  intro vault
  induction vault with
  | nil => intro _; simp [getBacklinks]
  | cons pc rest ih =>
    intro hnd
    simp only [List.map_cons, List.nodup_cons] at hnd
    rw [getBacklinks, List.filterMap_cons]
    by_cases hn : countLinks name pc.2 = 0
    · rw [if_pos hn]
      exact ih hnd.2
    · rw [if_neg hn]
      rw [List.map_cons, List.nodup_cons]
      refine ⟨?_, ih hnd.2⟩
      intro hc
      obtain ⟨e, hm, hpath⟩ := List.mem_map.mp hc
      obtain ⟨pc2, hm2, -, rfl⟩ := getBacklinks_mem.mp hm
      have hp2 : pc2.1 = pc.1 := hpath
      exact hnd.1 (hp2 ▸ List.mem_map.mpr ⟨pc2, hm2, rfl⟩)

/-! ## Whole-word tag search characterization -/

theorem stripHash_hashes (t : String) : stripHash ("#" ++ t) = stripHash t := by
  rw [stripHash, stripHash, str_toList_append]
  rw [show ("#" : String).toList = ['#'] from rfl]
  simp [List.dropWhile]

theorem hashSearch_iff (clean : List Char) :
    ∀ (cs : List Char), hashSearch clean cs = true
      ↔ ∃ pre post, cs = pre ++ '#' :: (clean ++ post)
          ∧ wordAt (clean ++ post).head? = true
          ∧ wordAt (('#' :: clean).getLast?) ≠ wordAt post.head? := by
  intro cs
  induction cs with
  | nil =>
    simp only [hashSearch]
    constructor
    · intro h; simp at h
    · rintro ⟨pre, post, hcs, -, -⟩
      exact absurd hcs (by simp)
  | cons c rest ih =>
    simp only [hashSearch, Bool.or_eq_true, Bool.and_eq_true, decide_eq_true_eq]
    constructor
    · rintro (⟨rfl, hm⟩ | h)
      · rw [matchAfterHash] at hm
        simp only [Bool.and_eq_true, bne_iff_ne] at hm
        obtain ⟨⟨h1, h2⟩, h3⟩ := hm
        have hrest : rest = clean ++ rest.drop clean.length := isPrefixOf_decomp h2
        refine ⟨[], rest.drop clean.length, by rw [← hrest]; rfl, ?_, ?_⟩
        · rw [← hrest]; exact h1
        · exact h3
      · obtain ⟨pre, post, hcs, h1, h2⟩ := ih.mp h
        exact ⟨c :: pre, post, by rw [hcs]; rfl, h1, h2⟩
    · rintro ⟨pre, post, hcs, h1, h2⟩
      cases pre with
      | nil =>
        simp only [List.nil_append] at hcs
        rw [List.cons.injEq] at hcs
        obtain ⟨rfl, rfl⟩ := hcs
        left
        refine ⟨rfl, ?_⟩
        rw [matchAfterHash]
        simp only [Bool.and_eq_true, bne_iff_ne]
        refine ⟨⟨h1, ?_⟩, ?_⟩
        · exact List.isPrefixOf_iff_prefix.mpr ⟨post, rfl⟩
        · rw [List.drop_left]
          exact h2
      | cons c2 pre2 =>
        rw [List.cons_append, List.cons.injEq] at hcs
        obtain ⟨rfl, hcs2⟩ := hcs
        right
        exact ih.mpr ⟨pre2, post, hcs2, h1, h2⟩

/-! # Claim theorems -/

theorem lstripSlash_slash (p : String) : lstripSlash ("/" ++ p) = lstripSlash p := by
  rw [lstripSlash, lstripSlash, str_toList_append]
  rw [show ("/" : String).toList = ['/'] from rfl]
  simp [List.dropWhile]

/-- C1: `_resolve_path` strips leading path separators, joins the input
against the vault root and canonicalizes; it raises `PathTraversalError`
exactly when the canonical result is neither equal to nor nested under the
canonical root, otherwise returning the canonical result, which always sits
at or under the root; the check precedes any filesystem access (operations
return the resolution failure whatever the filesystem holds), and the
spec's concrete examples hold. -/
theorem C1_resolve_path_confinement :
    (∀ (root : AbsPath) (p : String) (q : AbsPath),
      resolvePath root p = .ok q →
        q = canonicalTarget root p ∧ isUnder root q = true ∧ ∃ t, q = root ++ t)
    ∧ (∀ (root : AbsPath) (p : String),
      (∃ e, resolvePath root p = .error e) ↔ ¬ ∃ t, canonicalTarget root p = root ++ t)
    ∧ (∀ (root : AbsPath) (p : String), resolvePath root ("/" ++ p) = resolvePath root p)
    ∧ (∀ (root : AbsPath) (p : String) (fs : FS) (e : VaultErr),
      resolvePath root p = .error e →
        readNote root fs p = .error e ∧ ∀ B, editNote root fs p B = (fs, some e))
    ∧ resolvePath ["home", "user", "vault"] "../outside.md" = .error .pathTraversal
    ∧ resolvePath ["home", "user", "vault"] "Daily/2024-01-01.md"
      = .ok ["home", "user", "vault", "Daily", "2024-01-01.md"] := by
  refine ⟨?_, ?_, ?_, ?_, rfl, rfl⟩
  · intro root p q h
    rw [resolvePath] at h
    by_cases hu : isUnder root (canonicalTarget root p) = true
    · rw [if_pos hu] at h
      rw [Except.ok.injEq] at h
      subst h
      exact ⟨rfl, hu, (isUnder_iff root _).mp hu⟩
    · rw [if_neg hu] at h
      simp at h
  · intro root p
    rw [resolvePath]
    by_cases hu : isUnder root (canonicalTarget root p) = true
    · rw [if_pos hu]
      simp only [iff_iff_implies_and_implies]
      constructor
      · rintro ⟨e, he⟩
        simp at he
      · intro hn
        exact absurd ((isUnder_iff root _).mp hu) hn
    · rw [if_neg hu]
      constructor
      · intro _
        intro hc
        exact hu ((isUnder_iff root _).mpr hc)
      · intro _
        exact ⟨.pathTraversal, rfl⟩
  · intro root p
    rw [resolvePath, resolvePath, canonicalTarget, canonicalTarget, lstripSlash_slash]
  · intro root p fs e h
    constructor
    · simp only [readNote, h]
    · intro B
      simp only [editNote, h]

/-- C1 witness: the success branch applied at the spec's concrete
example. -/
theorem C1_resolve_path_confinement_witness :
    ["home", "user", "vault", "Daily", "2024-01-01.md"]
        = canonicalTarget ["home", "user", "vault"] "Daily/2024-01-01.md"
      ∧ isUnder ["home", "user", "vault"]
          ["home", "user", "vault", "Daily", "2024-01-01.md"] = true
      ∧ ∃ t, ["home", "user", "vault", "Daily", "2024-01-01.md"]
          = ["home", "user", "vault"] ++ t :=
  C1_resolve_path_confinement.1 ["home", "user", "vault"] "Daily/2024-01-01.md"
    ["home", "user", "vault", "Daily", "2024-01-01.md"] rfl

/-- C2 counterexample: serializing nonempty metadata over the body
`"\nBody"` and parsing back recovers body `"Body"` — the closing `\s*\n`
of the header pattern swallows the body's leading newline — refuting the
round-trip claim for every body. -/
theorem C2_roundtrip_counterexample :
    parseFM (dumpFM [("title", .s "Test")] "\nBody")
      = .ok ⟨[("title", .s "Test")], "Body", true⟩
    ∧ "Body" ≠ "\nBody" :=
  ⟨rfl, by decide⟩

/-- C2 (amended): for every nonempty well-formed flat metadata mapping M
and every body B whose leading whitespace run contains no newline,
parse(serialize(M, B)) returns metadata M, body B and hasMetadata true; for
every body B, serialize({}, B) is exactly B with no header emitted. -/
theorem C2_roundtrip (md : Metadata) (B : String) (hmd : md ≠ [])
    (hwf : wfMeta md) (hB : goodBody B) :
    parseFM (dumpFM md B) = .ok ⟨md, B, true⟩
    ∧ ∀ B2 : String, dumpFM [] B2 = B2 :=
  ⟨parseFM_dumpFM hmd hwf hB, fun _ => rfl⟩

/-- C2 witness: the round trip at a concrete metadata mapping and body. -/
theorem C2_roundtrip_witness :
    parseFM (dumpFM [("title", YVal.s "Test")] "Hello world")
      = .ok ⟨[("title", YVal.s "Test")], "Hello world", true⟩
    ∧ ∀ B2 : String, dumpFM [] B2 = B2 :=
  C2_roundtrip [("title", .s "Test")] "Hello world" (List.cons_ne_nil _ _)
    (by decide) (by decide)

/-- C3: `update` serializes, with the parsed text's original body, the
mapping obtained from the existing metadata by overwriting or inserting
every key of the new metadata; the merged value at any key present in the
new mapping is exactly the new value (so a nested mapping replaces the old
value wholesale, with no deep merge), keys are not duplicated, and when the
text had no header the merged metadata is exactly the new metadata; the
spec's two concrete merge examples hold. -/
theorem C3_update_merge (text : String) (md : Metadata) (r : FMResult)
    (hr : parseFM text = .ok r) (hnd : keysNodup md) :
    updateFM text md = .ok (dumpFM (mergeDicts r.frontmatter md) r.content)
    ∧ (∀ key, lookupKey (mergeDicts r.frontmatter md) key
        = (lookupKey md key).orElse (fun _ => lookupKey r.frontmatter key))
    ∧ (keysNodup r.frontmatter → keysNodup (mergeDicts r.frontmatter md))
    ∧ (r.has_frontmatter = false → mergeDicts r.frontmatter md = md)
    ∧ updateFM "---\ntitle: Original\n---\nBody" [("author", .s "Test")]
      = .ok "---\ntitle: Original\nauthor: Test\n---\n\nBody"
    ∧ updateFM "---\ntitle: Original\n---\nBody" [("title", .s "Updated")]
      = .ok "---\ntitle: Updated\n---\n\nBody" := by
  refine ⟨?_, lookupKey_mergeDicts _ hnd, fun ha => keysNodup_mergeDicts _ ha,
    ?_, rfl, rfl⟩
  · rw [updateFM, hr]
  · intro hf
    obtain ⟨hfm, -⟩ := parseFM_no_fm hr hf
    rw [hfm]
    exact mergeDicts_nil_left hnd

/-- C3 witness: the pipeline equation at the spec's concrete example. -/
theorem C3_update_merge_witness :
    updateFM "---\ntitle: Original\n---\nBody" [("author", YVal.s "Test")]
      = .ok (dumpFM (mergeDicts [("title", YVal.s "Original")]
          [("author", YVal.s "Test")]) "Body") :=
  (C3_update_merge "---\ntitle: Original\n---\nBody" [("author", .s "Test")]
    ⟨[("title", .s "Original")], "Body", true⟩ rfl (by decide)).1

/-- C4 counterexample: editing a note that has no header with a body that
itself begins a header block makes the note parse with new nonempty
metadata afterwards, so `edit_note` does not in general leave the parsed
metadata unchanged. -/
theorem C4_edit_note_counterexample :
    editNote ["v"] [(["v", "n.md"], "plain body")] "n.md" "---\ntitle: x\n---\nrest"
      = ([(["v", "n.md"], "---\ntitle: x\n---\nrest")], none)
    ∧ parseFM "plain body" = .ok ⟨[], "plain body", false⟩
    ∧ parseFM "---\ntitle: x\n---\nrest" = .ok ⟨[("title", .s "x")], "rest", true⟩
    ∧ ([("title", YVal.s "x")] : Metadata) ≠ [] :=
  ⟨rfl, rfl, rfl, by simp⟩

/-- C4 (amended): `edit_note` raises `NoteNotFoundError` when the note is
absent; when the existing note parses with a frontmatter block carrying
nonempty well-formed metadata M, the rewritten file is the dump of M over
the new body B, and parses back to metadata M (unchanged) and body B,
provided B's leading whitespace run contains no newline; when the existing
note has no frontmatter block, the rewritten file is exactly B. -/
theorem C4_edit_note (root : AbsPath) (fs : FS) (p B : String) (q : AbsPath)
    (hq : resolvePath root p = .ok q) :
    (fsLookup fs q = none → editNote root fs p B = (fs, some .noteNotFound))
    ∧ (∀ text md body, fsLookup fs q = some text →
        parseFM text = .ok ⟨md, body, true⟩ → md ≠ [] → wfMeta md → goodBody B →
        editNote root fs p B = (fsWrite fs q (dumpFM md B), none)
        ∧ parseFM (dumpFM md B) = .ok ⟨md, B, true⟩)
    ∧ (∀ text md0 body, fsLookup fs q = some text →
        parseFM text = .ok ⟨md0, body, false⟩ →
        editNote root fs p B = (fsWrite fs q B, none)) := by
  refine ⟨?_, ?_, ?_⟩
  · intro hl
    simp only [editNote, hq, hl]
  · intro text md body hl hp hmd hwf hB
    constructor
    · simp [editNote, hq, hl, hp]
    · exact parseFM_dumpFM hmd hwf hB
  · intro text md0 body hl hp
    simp [editNote, hq, hl, hp]

/-- C4 witness: the preserved-metadata branch at the spec's `title: Welcome`
example. -/
theorem C4_edit_note_witness :
    editNote ["v"] [(["v", "n.md"], "---\ntitle: Welcome\n---\nold")] "n.md" "new body"
      = (fsWrite [(["v", "n.md"], "---\ntitle: Welcome\n---\nold")] ["v", "n.md"]
          (dumpFM [("title", YVal.s "Welcome")] "new body"), none)
    ∧ parseFM (dumpFM [("title", YVal.s "Welcome")] "new body")
      = .ok ⟨[("title", YVal.s "Welcome")], "new body", true⟩ :=
  (C4_edit_note ["v"] [(["v", "n.md"], "---\ntitle: Welcome\n---\nold")] "n.md"
      "new body" ["v", "n.md"] rfl).2.1
    "---\ntitle: Welcome\n---\nold" [("title", .s "Welcome")] "old" rfl rfl
    (List.cons_ne_nil _ _) (by decide) (by decide)

/-- C5: whenever no header-block decomposition exists at the start of the
text, parse returns hasMetadata false, empty metadata and the entire input
unchanged as body; in particular a closing delimiter not immediately
followed by a newline is not a match, so parsing
`"---\ntitle: Test\n---Content"` yields hasMetadata false with the whole
input as body. -/
theorem C5_parse_no_match :
    (∀ text : String, ¬ hasHeaderBlock text.toList →
      parseFM text = .ok ⟨[], text, false⟩)
    ∧ parseFM "---\ntitle: Test\n---Content"
      = .ok ⟨[], "---\ntitle: Test\n---Content", false⟩ := by
  constructor
  · intro text hnb
    rw [parseFM]
    rcases hm : matchFrontmatter text.toList with _ | p
    · rfl
    · exact absurd (matchFrontmatter_sound hm) hnb
  · rfl

/-- C5 witness: the general branch at a text with no header block. -/
theorem C5_parse_no_match_witness :
    parseFM "no delimiters" = .ok ⟨[], "no delimiters", false⟩ :=
  C5_parse_no_match.1 "no delimiters" (by
    rintro ⟨w1, g, w2, t, -, -, h⟩
    have hh := congrArg List.head? h
    have hh2 : (some 'n' : Option Char) = some '-' := hh
    exact absurd hh2 (by decide))

/-- C6 counterexample: a single note containing the same tag twice yields
that note's path twice among the examples — the recorded example paths are
per occurrence, not distinct note paths as claimed. -/
theorem C6_list_tags_counterexample :
    (listTags [("n.md", "#t #t")]).map (fun e => e.examples) = [["n.md", "n.md"]]
    ∧ (["n.md", "n.md"] : List String) ≠ ["n.md"] :=
  ⟨rfl, by decide⟩

/-- C6 (amended): `list_tags` scans every note for `#`-word tokens and
returns one entry per distinct tag; each entry's count is the tag's total
occurrence count across the vault and its examples are the note paths of
its first at-most-3 occurrences in scan order (so a path repeats when a tag
occurs several times in one note); the result is sorted descending by
count, entries of equal count keep the aggregation order (stable sort), and
the aggregation order lists tags by first encounter. -/
theorem C6_list_tags (vault : Vault) :
    (∀ e ∈ listTags vault, e.count = countOcc vault e.tag
      ∧ e.examples = (occPaths vault e.tag).take 3 ∧ e.count ≠ 0)
    ∧ (∀ t, countOcc vault t ≠ 0 →
        ∃ e ∈ listTags vault, e.tag = t)
    ∧ List.Pairwise (fun a b => b.count ≤ a.count) (listTags vault)
    ∧ (∀ c, (listTags vault).filter (fun e => e.count = c)
        = (tagData vault).filter (fun e => e.count = c))
    ∧ (tagData vault).map (fun e => e.tag)
      = firstDedup ((tagOccs vault).map Prod.fst) := by
  refine ⟨?_, ?_, sortTags_sorted _, fun c => filter_sortTags c _, tags_tagData vault⟩
  · intro e he
    have hmem : e ∈ tagData vault := mem_sortTags.mp he
    have hf := entryFor_of_mem hmem (tagsNodup_tagData vault)
    have hcomb := hf.symm.trans (entryFor_tagData vault e.tag)
    by_cases hz : countOcc vault e.tag = 0
    · rw [if_pos hz] at hcomb
      simp at hcomb
    · rw [if_neg hz] at hcomb
      rw [Option.some.injEq] at hcomb
      refine ⟨?_, ?_, ?_⟩
      · exact congrArg TagEntry.count hcomb
      · exact congrArg TagEntry.examples hcomb
      · rw [congrArg TagEntry.count hcomb]
        exact hz
  · intro t hz
    have hf := entryFor_tagData vault t
    rw [if_neg hz] at hf
    refine ⟨⟨t, countOcc vault t, (occPaths vault t).take 3⟩, ?_, rfl⟩
    exact mem_sortTags.mpr (List.mem_of_find?_eq_some hf)

/-- C6 witness: the per-tag branch at a concrete two-note vault. -/
theorem C6_list_tags_witness :
    ∃ e ∈ listTags [("a.md", "#x #y #y"), ("b.md", "#z #y")], e.tag = "y" :=
  (C6_list_tags [("a.md", "#x #y #y"), ("b.md", "#z #y")]).2.1 "y" (by decide)

/-- C7: `get_backlinks` reports a match only at a literal `[[name]]` or
`[[name|alias]]` occurrence (the name matched exactly as written so pattern
characters in it have no effect, the alias a nonempty run without `]`), so
there are no partial or prefix matches of longer link targets; it returns
one entry with the match count for every scanned note with at least one
match, no duplicate entries for distinct paths, and both spec example forms
count as links. -/
theorem C7_get_backlinks (name : String) (vault : Vault) :
    (∀ cs r : List Char, linkRem? name.toList cs = some r →
      cs = '[' :: '[' :: (name.toList ++ ']' :: ']' :: r)
      ∨ ∃ a, a ≠ [] ∧ (∀ c ∈ a, c ≠ ']') ∧
          cs = '[' :: '[' :: (name.toList ++ '|' :: (a ++ ']' :: ']' :: r)))
    ∧ (∀ e ∈ getBacklinks name vault, ∃ pc ∈ vault,
        e.path = pc.1 ∧ e.link_count = countLinks name pc.2 ∧ 0 < e.link_count)
    ∧ (∀ pc ∈ vault, countLinks name pc.2 ≠ 0 →
        ∃ e ∈ getBacklinks name vault,
          e.path = pc.1 ∧ e.link_count = countLinks name pc.2)
    ∧ ((vault.map Prod.fst).Nodup →
        ((getBacklinks name vault).map (fun e => e.path)).Nodup)
    ∧ getBacklinks "Project A"
        [("a.md", "see [[Project A]]"), ("b.md", "x [[Project A|alias]] y"),
         ("c.md", "[[Project A Extended]]")]
      = [⟨"a.md", 1⟩, ⟨"b.md", 1⟩] := by
  refine ⟨fun cs r h => linkRem?_sound h, ?_, ?_, getBacklinks_paths_nodup, rfl⟩
  · intro e he
    obtain ⟨pc, hm, hn, rfl⟩ := getBacklinks_mem.mp he
    exact ⟨pc, hm, rfl, rfl, Nat.pos_of_ne_zero hn⟩
  · intro pc hm hn
    exact ⟨⟨pc.1, countLinks name pc.2⟩, getBacklinks_mem.mpr ⟨pc, hm, hn, rfl⟩, rfl, rfl⟩

/-- C7 witness: pattern soundness applied at a concrete match. -/
theorem C7_get_backlinks_witness :
    "[[A]]x".toList = '[' :: '[' :: ("A".toList ++ ']' :: ']' :: "x".toList)
    ∨ ∃ a, a ≠ [] ∧ (∀ c ∈ a, c ≠ ']') ∧
        "[[A]]x".toList
          = '[' :: '[' :: ("A".toList ++ '|' :: (a ++ ']' :: ']' :: "x".toList)) :=
  (C7_get_backlinks "A" []).1 "[[A]]x".toList "x".toList rfl

/-- C8: `find_by_tag` strips the leading `#` characters of the query and
returns exactly the notes containing `#` immediately followed by the
stripped tag with a word boundary on both sides; consequently the query
`custom` does not match a note containing only `#customtag`, and querying
with or without the `#` prefix returns identical result sets. -/
theorem C8_find_by_tag :
    (∀ (clean cs : List Char), hashSearch clean cs = true
      ↔ ∃ pre post, cs = pre ++ '#' :: (clean ++ post)
          ∧ wordAt (clean ++ post).head? = true
          ∧ wordAt (('#' :: clean).getLast?) ≠ wordAt post.head?)
    ∧ (∀ (t : String) (vault : Vault) (p : String),
        p ∈ findByTag t vault
          ↔ ∃ pc ∈ vault, pc.1 = p
              ∧ hashSearch (stripHash t).toList pc.2.toList = true)
    ∧ (∀ (t : String) (vault : Vault), findByTag ("#" ++ t) vault = findByTag t vault)
    ∧ findByTag "custom" [("n.md", "has #customtag only")] = []
    ∧ findByTag "#project" [("a.md", "#project x"), ("b.md", "none")]
      = findByTag "project" [("a.md", "#project x"), ("b.md", "none")] := by
  refine ⟨fun clean cs => hashSearch_iff clean cs, ?_, ?_, rfl, rfl⟩
  · intro t vault p
    rw [findByTag, List.mem_filterMap]
    constructor
    · rintro ⟨pc, hm, hf⟩
      by_cases hs : hashSearch (stripHash t).toList pc.2.toList = true
      · rw [if_pos hs] at hf
        rw [Option.some.injEq] at hf
        exact ⟨pc, hm, hf, hs⟩
      · rw [if_neg hs] at hf
        simp at hf
    · rintro ⟨pc, hm, rfl, hs⟩
      exact ⟨pc, hm, by rw [if_pos hs]⟩
  · intro t vault
    rw [findByTag, findByTag, stripHash_hashes]

/-- C8 witness: the whole-word characterization applied at a concrete
matching text. -/
theorem C8_find_by_tag_witness :
    ∃ pre post, "x #custom y".toList
        = pre ++ '#' :: ("custom".toList ++ post)
      ∧ wordAt ("custom".toList ++ post).head? = true
      ∧ wordAt (('#' :: "custom".toList).getLast?) ≠ wordAt post.head? :=
  (C8_find_by_tag.1 "custom".toList "x #custom y".toList).mp (by decide)

/-- C9: when the header block matches at the start of the text but its
content is structurally invalid, parse fails with the
`Invalid YAML frontmatter` failure carrying the loader's diagnostic, and
that failure propagates unchanged through every operation that parses a
header — `read_frontmatter`, `edit_note` and `update_frontmatter` — rather
than being swallowed into partial or empty metadata. -/
theorem C9_metadata_error_propagation (root : AbsPath) (fs : FS) (p : String)
    (q : AbsPath) (text : String) (hq : resolvePath root p = .ok q)
    (hl : fsLookup fs q = some text) :
    (∀ (g rest : List Char) (e : String), matchFrontmatter text.toList = some (g, rest) →
      yamlLoad g = .error e →
      parseFM text = .error ("Invalid YAML frontmatter: " ++ e))
    ∧ (∀ e : String, parseFM text = .error e →
        readFrontmatter root fs p = .error (.metadataFormat e)
        ∧ (∀ B, editNote root fs p B = (fs, some (.metadataFormat e)))
        ∧ (∀ md, updateFrontmatter root fs p md = (fs, some (.metadataFormat e)))) := by
  constructor
  · intro g rest e hm hy
    rw [parseFM, hm]
    show (match yamlLoad g with
      | Except.error e2 =>
        (Except.error ("Invalid YAML frontmatter: " ++ e2) : Except String FMResult)
      | Except.ok md => Except.ok ⟨md, String.mk rest, true⟩)
      = Except.error ("Invalid YAML frontmatter: " ++ e)
    rw [hy]
  · intro e hp
    refine ⟨?_, ?_, ?_⟩
    · simp only [readFrontmatter, hq, hl, hp]
    · intro B
      simp only [editNote, hq, hl, hp]
    · intro md
      simp only [updateFrontmatter, hq, hl, updateFM, hp]

/-- C9 witness: the propagation at a concrete malformed header. -/
theorem C9_metadata_error_propagation_witness :
    readFrontmatter ["v"] [(["v", "n.md"], "---\nbadline\n---\nbody")] "n.md"
      = .error (.metadataFormat
          "Invalid YAML frontmatter: could not parse block mapping entry: badline") :=
  ((C9_metadata_error_propagation ["v"] [(["v", "n.md"], "---\nbadline\n---\nbody")]
      "n.md" ["v", "n.md"] "---\nbadline\n---\nbody" rfl rfl).2
    "Invalid YAML frontmatter: could not parse block mapping entry: badline" rfl).1

/-- C10: the mutating operations validate before they write: whenever
`create_note`, `edit_note` or `update_frontmatter` raises any failure, the
filesystem is unchanged; and a successful `create_note` performs exactly the
single write to the resolved target. -/
theorem C10_validate_before_write (root : AbsPath) (fs : FS) (p : String) :
    (∀ (content : String) (fm : Option Metadata) (e : VaultErr),
      (createNote root fs p content fm).2 = some e →
      (createNote root fs p content fm).1 = fs)
    ∧ (∀ (B : String) (e : VaultErr),
      (editNote root fs p B).2 = some e → (editNote root fs p B).1 = fs)
    ∧ (∀ (md : Metadata) (e : VaultErr),
      (updateFrontmatter root fs p md).2 = some e →
      (updateFrontmatter root fs p md).1 = fs)
    ∧ (∀ (content : String) (fm : Option Metadata),
      (createNote root fs p content fm).2 = none →
      ∃ q text, resolvePath root p = .ok q
        ∧ (createNote root fs p content fm).1 = fsWrite fs q text) := by
  refine ⟨?_, ?_, ?_, ?_⟩
  · intro content fm e h
    rcases hr : resolvePath root p with e0 | q
    · simp [createNote, hr]
    · by_cases hex : (fsLookup fs q).isSome = true
      · simp [createNote, hr, hex]
      · simp only [createNote, hr, Bool.not_eq_true] at hex h ⊢
        rw [hex] at h ⊢
        simp at h
  · intro B e h
    rcases hr : resolvePath root p with e0 | q
    · simp [editNote, hr]
    · rcases hl : fsLookup fs q with _ | text
      · simp [editNote, hr, hl]
      · rcases hp : parseFM text with e2 | r
        · simp [editNote, hr, hl, hp]
        · simp [editNote, hr, hl, hp] at h
  · intro md e h
    rcases hr : resolvePath root p with e0 | q
    · simp [updateFrontmatter, hr]
    · rcases hl : fsLookup fs q with _ | text
      · simp [updateFrontmatter, hr, hl]
      · rcases hu : updateFM text md with e2 | newText
        · simp [updateFrontmatter, hr, hl, hu]
        · simp [updateFrontmatter, hr, hl, hu] at h
  · intro content fm h
    rcases hr : resolvePath root p with e0 | q
    · simp [createNote, hr] at h
    · by_cases hex : (fsLookup fs q).isSome = true
      · simp [createNote, hr, hex] at h
      · rcases fm with _ | md
        · refine ⟨q, content, rfl, ?_⟩
          · simp only [createNote, hr, Bool.not_eq_true] at hex ⊢
            rw [hex]
            simp
        · refine ⟨q, if md.isEmpty then content else dumpFM md content, rfl, ?_⟩
          · simp only [createNote, hr, Bool.not_eq_true] at hex ⊢
            rw [hex]
            simp

/-- C10 witness: a failing `create_note` on an existing target leaves the
filesystem unchanged. -/
theorem C10_validate_before_write_witness :
    (createNote ["v"] [(["v", "a.md"], "x")] "a.md" "y" none).1
      = [(["v", "a.md"], "x")] :=
  (C10_validate_before_write ["v"] [(["v", "a.md"], "x")] "a.md").1 "y" none
    .noteExists rfl
